import Mathlib

/-!
Verification of `dod::circular_buffer` (src/circular_buffer/circular_buffer.h)
against its natural-language specification.

The container is shallowly embedded as follows.

* `overflow_policy` and `insert_result` mirror the two enums of the header.
* A buffer state is a `CB α`: a list of `Option α` slots (a constructed
  element is `some v`, uninitialized raw memory is `none`), plus the
  `m_head` / `m_tail` / `m_size` fields.  The compile-time `Capacity`
  becomes an explicit parameter `C`; the unsigned `IndexType` of width `w`
  bits shows up only where the C++ code relies on unsigned wraparound
  (the `index - 1` in `prev_index`), modelled as `(i + (2 ^ w - 1)) % 2 ^ w`.
* Placement `construct` / `destruct` / `reconstruct` become `List.set` with
  `some v` respectively `none`.
* Each member function of the header is translated to a pure function on
  `CB α`; loops become structural recursions on the loop counter.
-/

set_option maxHeartbeats 1000000

namespace CircBuf

/-- The `dod::overflow_policy` enum. -/
inductive overflow_policy : Type where
  | overwrite : overflow_policy
  | discard : overflow_policy
deriving DecidableEq, Repr

/-- The `dod::insert_result` enum. -/
inductive insert_result : Type where
  | inserted : insert_result
  | overwritten : insert_result
  | discarded : insert_result
deriving DecidableEq, Repr

/-! Index arithmetic (circular_buffer.h lines 241-279).  The header picks the
bitmask path when `(Capacity & (Capacity - 1)) == 0` and the generic
conditional/modulo path otherwise.  Both branch bodies are kept as separate
named functions so that they can be compared. -/

/-- Bitmask branch of `next_index`: `(index + 1) & (Capacity - 1)`. -/
def next_index_pow2 (C i : ℕ) : ℕ := (i + 1) &&& (C - 1)

/-- Generic branch of `next_index`: `(index + 1 < Capacity) ? index + 1 : 0`. -/
def next_index_generic (C i : ℕ) : ℕ := if i + 1 < C then i + 1 else 0

/-- `next_index` with the `if constexpr` dispatch of the header. -/
def next_index (C i : ℕ) : ℕ :=
  if C &&& (C - 1) = 0 then next_index_pow2 C i else next_index_generic C i

/-- Bitmask branch of `prev_index`: `(index - 1) & (Capacity - 1)` where
`index - 1` wraps in the unsigned arithmetic of width `w`. -/
def prev_index_pow2 (w C i : ℕ) : ℕ := ((i + (2 ^ w - 1)) % 2 ^ w) &&& (C - 1)

/-- Generic branch of `prev_index`: `(index > 0) ? index - 1 : Capacity - 1`. -/
def prev_index_generic (C i : ℕ) : ℕ := if 0 < i then i - 1 else C - 1

/-- `prev_index` with the `if constexpr` dispatch of the header. -/
def prev_index (w C i : ℕ) : ℕ :=
  if C &&& (C - 1) = 0 then prev_index_pow2 w C i else prev_index_generic C i

/-- Bitmask branch of `add_index`: `(index + offset) & (Capacity - 1)`,
where `index + offset` is computed in the unsigned arithmetic of width `w`
and therefore wraps modulo `2 ^ w`. -/
def add_index_pow2 (w C i k : ℕ) : ℕ := ((i + k) % 2 ^ w) &&& (C - 1)

/-- Generic branch of `add_index`: `(index + offset) % Capacity`, where
`index + offset` wraps in the unsigned arithmetic of width `w`. -/
def add_index_generic (w C i k : ℕ) : ℕ := ((i + k) % 2 ^ w) % C

/-- `add_index` with the `if constexpr` dispatch of the header. -/
def add_index (w C i k : ℕ) : ℕ :=
  if C &&& (C - 1) = 0 then add_index_pow2 w C i k else add_index_generic w C i k

/-! Recognition of powers of two: the header's compile-time test
`(Capacity & (Capacity - 1)) == 0` holds for a positive capacity exactly
when the capacity is a power of two. -/

lemma pow2_of_and_pred_eq_zero {C : ℕ} (hC : 0 < C) (h : C &&& (C - 1) = 0) :
    C = 2 ^ C.log2 := by
  by_contra hne
  have hC0 : C ≠ 0 := Nat.pos_iff_ne_zero.mp hC
  have hlow : 2 ^ C.log2 ≤ C := Nat.log2_self_le hC0
  have hhigh : C < 2 ^ (C.log2 + 1) := Nat.lt_log2_self
  have hlt : 2 ^ C.log2 < C := lt_of_le_of_ne hlow (fun he => hne he.symm)
  -- both C and C - 1 have bit `log2 C` set, contradicting the zero mask
  have hbitC : C.testBit C.log2 = true := by
    rw [Nat.testBit_to_div_mod]
    have h1 : 1 ≤ C / 2 ^ C.log2 := (Nat.one_le_div_iff (Nat.pos_pow_of_pos _ (by norm_num))).mpr hlow
    have h2 : C / 2 ^ C.log2 < 2 := by
      rw [Nat.div_lt_iff_lt_mul (Nat.pos_pow_of_pos _ (by norm_num))]
      calc C < 2 ^ (C.log2 + 1) := hhigh
        _ = 2 * 2 ^ C.log2 := by ring
    have : C / 2 ^ C.log2 = 1 := le_antisymm (Nat.lt_succ_iff.mp h2) h1
    simp [this]
  have hbitP : (C - 1).testBit C.log2 = true := by
    rw [Nat.testBit_to_div_mod]
    have hlow' : 2 ^ C.log2 ≤ C - 1 := by omega
    have h1 : 1 ≤ (C - 1) / 2 ^ C.log2 :=
      (Nat.one_le_div_iff (Nat.pos_pow_of_pos _ (by norm_num))).mpr hlow'
    have h2 : (C - 1) / 2 ^ C.log2 < 2 := by
      rw [Nat.div_lt_iff_lt_mul (Nat.pos_pow_of_pos _ (by norm_num))]
      have : C - 1 < 2 ^ (C.log2 + 1) := by omega
      calc C - 1 < 2 ^ (C.log2 + 1) := this
        _ = 2 * 2 ^ C.log2 := by ring
    have : (C - 1) / 2 ^ C.log2 = 1 := le_antisymm (Nat.lt_succ_iff.mp h2) h1
    simp [this]
  have : (C &&& (C - 1)).testBit C.log2 = true := by
    rw [Nat.testBit_and, hbitC, hbitP]; rfl
  rw [h] at this
  simp at this

/-! The three helpers compute the mathematical result modulo the capacity. -/

lemma next_index_eq_mod {C : ℕ} (hC : 0 < C) (i : ℕ) (hi : i < C) :
    next_index C i = (i + 1) % C := by
  unfold next_index next_index_pow2 next_index_generic
  split
  · next hmask =>
    have ht := pow2_of_and_pred_eq_zero hC hmask
    rw [ht, Nat.and_pow_two_sub_one_eq_mod]
  · by_cases h1 : i + 1 < C
    · simp [h1, Nat.mod_eq_of_lt h1]
    · have : i + 1 = C := by omega
      simp [h1, this]

lemma prev_index_eq_mod {w C : ℕ} (hC : 0 < C) (hw : C < 2 ^ w) (i : ℕ) (hi : i < C) :
    prev_index w C i = (i + (C - 1)) % C := by
  unfold prev_index prev_index_pow2 prev_index_generic
  split
  · next hmask =>
    have ht : C = 2 ^ C.log2 := pow2_of_and_pred_eq_zero hC hmask
    have hw2 : 0 < 2 ^ w := Nat.two_pow_pos w
    have hlog : C.log2 < w := by
      rw [Nat.log2_lt (Nat.pos_iff_ne_zero.mp hC)]; exact hw
    have hdvd : C ∣ 2 ^ w := ht ▸ pow_dvd_pow 2 (Nat.le_of_lt hlog)
    obtain ⟨m, hm⟩ := hdvd
    have hmask2 : ∀ x : ℕ, x &&& (C - 1) = x % C := by
      intro x
      conv_lhs => rw [ht]
      conv_rhs => rw [ht]
      exact Nat.and_pow_two_sub_one_eq_mod x _
    rw [hmask2, Nat.mod_mod_of_dvd _ ⟨m, hm⟩]
    have hCm : 2 ^ w = C * (m - 1) + C := by
      rw [hm]
      cases m with
      | zero => rw [hm, Nat.mul_zero] at hw2; omega
      | succ m' => simp [Nat.mul_succ]
    have he : i + (2 ^ w - 1) = (i + (C - 1)) + C * (m - 1) := by omega
    rw [he, Nat.add_mul_mod_self_left]
  · by_cases h0 : 0 < i
    · have : i + (C - 1) = (i - 1) + C := by omega
      rw [this, Nat.add_mod_right, Nat.mod_eq_of_lt (by omega)]
      simp [h0]
    · have : i = 0 := by omega
      subst this
      simp [Nat.mod_eq_of_lt (by omega : C - 1 < C)]

lemma add_index_eq_mod {w C : ℕ} (hC : 0 < C) (i k : ℕ) (hik : i + k < 2 ^ w) :
    add_index w C i k = (i + k) % C := by
  unfold add_index add_index_pow2 add_index_generic
  rw [Nat.mod_eq_of_lt hik]
  split
  · next hmask =>
    have ht := pow2_of_and_pred_eq_zero hC hmask
    rw [ht, Nat.and_pow_two_sub_one_eq_mod]
  · rfl

lemma add_index_pow2_eq_mod {w C : ℕ} (hC : 0 < C) (hw : C < 2 ^ w)
    (hmask : C &&& (C - 1) = 0) (i k : ℕ) :
    add_index w C i k = (i + k) % C := by
  have ht : C = 2 ^ C.log2 := pow2_of_and_pred_eq_zero hC hmask
  have hlog : C.log2 < w := by
    rw [Nat.log2_lt (Nat.pos_iff_ne_zero.mp hC)]; exact hw
  have hdvd : C ∣ 2 ^ w := ht ▸ pow_dvd_pow 2 (Nat.le_of_lt hlog)
  have hmask2 : ((i + k) % 2 ^ w) &&& (C - 1) = ((i + k) % 2 ^ w) % C := by
    conv_lhs => rw [ht]
    conv_rhs => rw [ht]
    exact Nat.and_pow_two_sub_one_eq_mod _ _
  unfold add_index add_index_pow2
  rw [if_pos hmask, hmask2, Nat.mod_mod_of_dvd _ hdvd]

/-- C2 counterexample: for `IndexType = uint32_t` (`w = 32`) and the
allowed capacity `3 * 2^30 = 3221225472 ≤ 2^32 - 1`, at physical index
`i = Capacity - 1` and offset `k = Capacity - 2` the unsigned sum
`index + offset` wraps, so `add_index` returns
`((i + k) mod 2^32) % Capacity = 2^31 - 3 = 2147483645`, not the
mathematical `(i + k) mod Capacity = Capacity - 3 = 3221225469`. -/
theorem add_index_width_wrap_counterexample :
    add_index 32 3221225472 3221225471 3221225470
      ≠ (3221225471 + 3221225470) % 3221225472 := by decide

/-- C2 (amended): for every capacity within the container's constraints
(`0 < Capacity` and `Capacity ≤ max IndexType`, i.e. `Capacity < 2 ^ w`),
every physical index `i < Capacity` and every offset `k ≤ Capacity`:
`next_index` and `prev_index` compute the mathematical result modulo the
capacity; `add_index` does so whenever the `w`-bit unsigned sum
`index + offset` does not wrap — in particular whenever
`2 * Capacity ≤ 2 ^ w` — and unconditionally when the capacity is a power
of two (the bitmask absorbs the wrap), in which case the bitmask branch
and the generic modulo branch also define the same function on all such
inputs. -/
theorem index_helpers_bounded_mod_and_paths_agree (w C i k : ℕ) (hC : 0 < C)
    (hw : C < 2 ^ w) (hi : i < C) (hk : k ≤ C) :
    next_index C i = (i + 1) % C ∧
    prev_index w C i = (i + (C - 1)) % C ∧
    (i + k < 2 ^ w → add_index w C i k = (i + k) % C) ∧
    (2 * C ≤ 2 ^ w → add_index w C i k = (i + k) % C) ∧
    (C &&& (C - 1) = 0 →
      add_index w C i k = (i + k) % C ∧
      next_index_pow2 C i = next_index_generic C i ∧
      prev_index_pow2 w C i = prev_index_generic C i ∧
      add_index_pow2 w C i k = add_index_generic w C i k) := by
  refine ⟨next_index_eq_mod hC i hi, prev_index_eq_mod hC hw i hi,
    fun hik => add_index_eq_mod hC i k hik,
    fun h2C => add_index_eq_mod hC i k (by omega), ?_⟩
  intro hmask
  have hn := next_index_eq_mod hC i hi
  have hp := prev_index_eq_mod hC hw i hi
  rw [next_index, if_pos hmask] at hn
  rw [prev_index, if_pos hmask] at hp
  refine ⟨add_index_pow2_eq_mod hC hw hmask i k, ?_, ?_, ?_⟩
  · rw [hn]
    unfold next_index_generic
    by_cases h1 : i + 1 < C
    · simp [h1, Nat.mod_eq_of_lt h1]
    · have : i + 1 = C := by omega
      simp [h1, this]
  · rw [hp]
    unfold prev_index_generic
    by_cases h0 : 0 < i
    · have : i + (C - 1) = (i - 1) + C := by omega
      rw [this, Nat.add_mod_right, Nat.mod_eq_of_lt (by omega)]
      simp [h0]
    · have : i = 0 := by omega
      subst this
      simp [Nat.mod_eq_of_lt (by omega : C - 1 < C)]
  · have ht : C = 2 ^ C.log2 := pow2_of_and_pred_eq_zero hC hmask
    show ((i + k) % 2 ^ w) &&& (C - 1) = ((i + k) % 2 ^ w) % C
    conv_lhs => rw [ht]
    conv_rhs => rw [ht]
    exact Nat.and_pow_two_sub_one_eq_mod _ _

/-- Witness for C2 at `w = 32`, `C = 16` (a power of two), `i = 15`, `k = 16`. -/
theorem index_helpers_bounded_mod_and_paths_agree_witness :
    next_index 16 15 = (15 + 1) % 16 ∧
    prev_index 32 16 15 = (15 + (16 - 1)) % 16 ∧
    (15 + 16 < 2 ^ 32 → add_index 32 16 15 16 = (15 + 16) % 16) ∧
    (2 * 16 ≤ 2 ^ 32 → add_index 32 16 15 16 = (15 + 16) % 16) ∧
    (16 &&& (16 - 1) = 0 →
      add_index 32 16 15 16 = (15 + 16) % 16 ∧
      next_index_pow2 16 15 = next_index_generic 16 15 ∧
      prev_index_pow2 32 16 15 = prev_index_generic 16 15 ∧
      add_index_pow2 32 16 15 16 = add_index_generic 32 16 15 16) :=
  index_helpers_bounded_mod_and_paths_agree 32 16 15 16 (by decide) (by decide)
    (by decide) (by decide)

/-! The buffer state and its operations (circular_buffer.h lines 198-813).
A slot holding `some v` is a constructed element, `none` is raw memory. -/

/-- State of a `dod::circular_buffer`: the element storage (one `Option`
slot per physical index) and the `m_head` / `m_tail` / `m_size` fields. -/
structure CB (α : Type) : Type where
  storage : List (Option α)
  head : ℕ
  tail : ℕ
  size : ℕ
deriving DecidableEq, Repr

variable {α : Type}

/-- `full()`: `m_size == Capacity`. -/
def full (C : ℕ) (s : CB α) : Bool := s.size == C

/-- `empty()`: `m_size == 0`. -/
def isEmpty (s : CB α) : Bool := s.size == 0

/-- `push_back_impl` (lines 281-308).  Under discard policy a full buffer
rejects the value; a full buffer under overwrite policy reconstructs the
slot at `m_head` and advances both cursors; otherwise the element is
constructed at `m_head`, which advances, and the size grows. -/
def push_back_impl (C : ℕ) (p : overflow_policy) (v : α) (s : CB α) :
    insert_result × CB α :=
  if p = overflow_policy.discard ∧ full C s then (insert_result.discarded, s)
  else if full C s then
    (insert_result.overwritten,
      { s with storage := s.storage.set s.head (some v),
               head := next_index C s.head,
               tail := next_index C s.tail })
  else
    (insert_result.inserted,
      { s with storage := s.storage.set s.head (some v),
               head := next_index C s.head,
               size := s.size + 1 })

/-- `push_front_impl` (lines 310-336): the mirror of `push_back_impl`,
decrementing `m_tail` (and `m_head` under overwrite) before constructing. -/
def push_front_impl (w C : ℕ) (p : overflow_policy) (v : α) (s : CB α) :
    insert_result × CB α :=
  if p = overflow_policy.discard ∧ full C s then (insert_result.discarded, s)
  else if full C s then
    (insert_result.overwritten,
      { s with storage := s.storage.set (prev_index w C s.tail) (some v),
               head := prev_index w C s.head,
               tail := prev_index w C s.tail })
  else
    (insert_result.inserted,
      { s with storage := s.storage.set (prev_index w C s.tail) (some v),
               tail := prev_index w C s.tail,
               size := s.size + 1 })

/-- `emplace_back_impl` (lines 339-366).  The overwrite path destroys the
slot at `m_head` and then constructs the new element there; `v` stands for
the element value produced by the forwarded constructor arguments. -/
def emplace_back_impl (C : ℕ) (p : overflow_policy) (v : α) (s : CB α) :
    insert_result × CB α :=
  if p = overflow_policy.discard ∧ full C s then (insert_result.discarded, s)
  else if full C s then
    (insert_result.overwritten,
      { s with storage := (s.storage.set s.head none).set s.head (some v),
               head := next_index C s.head,
               tail := next_index C s.tail })
  else
    (insert_result.inserted,
      { s with storage := s.storage.set s.head (some v),
               head := next_index C s.head,
               size := s.size + 1 })

/-- `emplace_front_impl` (lines 368-395). -/
def emplace_front_impl (w C : ℕ) (p : overflow_policy) (v : α) (s : CB α) :
    insert_result × CB α :=
  if p = overflow_policy.discard ∧ full C s then (insert_result.discarded, s)
  else if full C s then
    (insert_result.overwritten,
      { s with storage := (s.storage.set (prev_index w C s.tail) none).set
                 (prev_index w C s.tail) (some v),
               head := prev_index w C s.head,
               tail := prev_index w C s.tail })
  else
    (insert_result.inserted,
      { s with storage := s.storage.set (prev_index w C s.tail) (some v),
               tail := prev_index w C s.tail,
               size := s.size + 1 })

/-- `pop_back` (lines 776-782): precondition `!empty()` (asserted). -/
def pop_back (w C : ℕ) (s : CB α) : CB α :=
  { s with head := prev_index w C s.head,
           storage := s.storage.set (prev_index w C s.head) none,
           size := s.size - 1 }

/-- `pop_front` (lines 784-790): precondition `!empty()` (asserted). -/
def pop_front (C : ℕ) (s : CB α) : CB α :=
  { s with storage := s.storage.set s.tail none,
           tail := next_index C s.tail,
           size := s.size - 1 }

/-- `back()`: the slot at `prev_index(m_head)`. -/
def back_val (w C : ℕ) (s : CB α) : Option α :=
  s.storage.getD (prev_index w C s.head) none

/-- `front()`: the slot at `m_tail`. -/
def front_val (s : CB α) : Option α := s.storage.getD s.tail none

/-- `pop_back_safe` (lines 793-802). -/
def pop_back_safe (w C : ℕ) (s : CB α) : Option α × CB α :=
  if s.size = 0 then (none, s) else (back_val w C s, pop_back w C s)

/-- `pop_front_safe` (lines 804-813). -/
def pop_front_safe (C : ℕ) (s : CB α) : Option α × CB α :=
  if s.size = 0 then (none, s) else (front_val s, pop_front C s)

/-- Loop body of `destroy_all` (lines 397-410): destroys `n` elements
starting at physical index `cur`, advancing with `next_index`. -/
def destroyLoop (C : ℕ) : ℕ → List (Option α) → ℕ → List (Option α)
  | 0, st, _ => st
  | n + 1, st, cur => destroyLoop C n (st.set cur none) (next_index C cur)

/-- `destroy_all` (lines 397-410): destroy the live elements and reset
`m_size`, `m_head`, `m_tail` to zero.  `clear()` is exactly this. -/
def destroy_all (C : ℕ) (s : CB α) : CB α :=
  { storage := destroyLoop C s.size s.storage s.tail, head := 0, tail := 0, size := 0 }

/-- The default constructor (lines 444-450): an empty buffer over
uninitialized storage. -/
def mk0 (C : ℕ) : CB α := ⟨List.replicate C none, 0, 0, 0⟩

/-- `physical_index` (lines 274-279): `add_index(m_tail, logical_index)`
with the `w`-bit sum, precondition `logical_index < m_size` (asserted). -/
def physical_index (w C : ℕ) (s : CB α) (i : ℕ) : ℕ := add_index w C s.tail i

/-- `operator[]` (lines 657-667): the slot at `physical_index(index)`,
precondition `index < m_size` (asserted). -/
def op_index (w C : ℕ) (s : CB α) (i : ℕ) : Option α :=
  s.storage.getD (physical_index w C s i) none

/-- `at` (lines 669-683): throws `std::out_of_range` when
`index >= m_size`, otherwise returns the same slot as `operator[]`. -/
def at_acc (w C : ℕ) (s : CB α) (i : ℕ) : Except String (Option α) :=
  if s.size ≤ i then Except.error "circular_buffer index out of range"
  else Except.ok (s.storage.getD (physical_index w C s i) none)

/-- The logical contents of the buffer, oldest to newest: the slot at the
live-region position `(tail + i) % C` for each logical index `i < m_size`
(the spec's contiguous-with-wraparound reading of the live range starting
at `tail`, length `size`, modulo the capacity). -/
def toList (C : ℕ) (s : CB α) : List (Option α) :=
  (List.range s.size).map (fun i => s.storage.getD ((s.tail + i) % C) none)

/-- Loop of the copy constructor (lines 505-519) and copy/move assignment:
`n` times, construct at destination cursor `dh` the source slot at `sc`,
advancing both with `next_index`. -/
def copyLoop (C : ℕ) : ℕ → List (Option α) → ℕ → List (Option α) → ℕ →
    List (Option α) × ℕ
  | 0, dst, dh, _, _ => (dst, dh)
  | n + 1, dst, dh, src, sc =>
      copyLoop C n (dst.set dh (src.getD sc none)) (next_index C dh) src (next_index C sc)

/-- The copy constructor (lines 505-519): fresh storage, then the source's
elements are placement-copied in logical order starting at head `0`. -/
def copy_ctor (C : ℕ) (other : CB α) : CB α :=
  let r := copyLoop C other.size (List.replicate C none) 0 other.storage other.tail
  ⟨r.1, r.2, 0, other.size⟩

/-- Copy assignment (lines 579-596): a self-assignment check, then
destroy-all followed by the same copy loop.  `sameObject` models the
pointer identity test `this != &other`. -/
def copy_assign (C : ℕ) (sameObject : Bool) (dst src : CB α) : CB α :=
  if sameObject then dst
  else
    let d : CB α := destroy_all C dst
    let r := copyLoop C src.size d.storage d.head src.storage src.tail
    ⟨r.1, r.2, d.tail, src.size⟩

/-- Move constructor, inline-storage case (lines 533-546): element-wise
placement-move in logical order, then `other.destroy_all()`.  Returns the
pair (destination, source-after-move). -/
def move_ctor_inline (C : ℕ) (other : CB α) : CB α × CB α :=
  let r := copyLoop C other.size (List.replicate C none) 0 other.storage other.tail
  (⟨r.1, r.2, 0, other.size⟩, destroy_all C other)

/-- Move constructor, heap-storage case (lines 547-558): the allocation
pointer and all cursors transfer; the source is nulled out. -/
def move_ctor_heap (other : CB α) : CB α × CB α :=
  (⟨other.storage, other.head, other.tail, other.size⟩, ⟨[], 0, 0, 0⟩)

/-- Move assignment, inline-storage case (lines 608-620): destroy-all on
the destination, element-wise move, then `other.destroy_all()`. -/
def move_assign_inline (C : ℕ) (dst other : CB α) : CB α × CB α :=
  let d : CB α := destroy_all C dst
  let r := copyLoop C other.size d.storage d.head other.storage other.tail
  (⟨r.1, r.2, d.tail, other.size⟩, destroy_all C other)

/-- Move assignment, heap-storage case (lines 621-634): the destination's
old storage is freed and the source's pointer and cursors transfer. -/
def move_assign_heap (other : CB α) : CB α × CB α :=
  (⟨other.storage, other.head, other.tail, other.size⟩, ⟨[], 0, 0, 0⟩)

/-- Loop of the fill constructor (lines 460-466): `n` calls of
`push_back_unchecked(value)`. -/
def fillLoop (C : ℕ) (p : overflow_policy) (v : α) : ℕ → CB α → CB α
  | 0, s => s
  | n + 1, s => fillLoop C p v n (push_back_impl C p v s).2

/-- The fill constructor (lines 460-466): `Capacity` back-insertions of
`value` into a default-constructed buffer. -/
def fill_ctor (C : ℕ) (p : overflow_policy) (v : α) : CB α :=
  fillLoop C p v C (mk0 C)

/-- Sequential `push_back` of a list of values, collecting the insert
results (models a test driver pushing values back-to-back). -/
def pushAll (C : ℕ) (p : overflow_policy) : List α → CB α → List insert_result × CB α
  | [], s => ([], s)
  | v :: vs, s =>
      ((push_back_impl C p v s).1 :: (pushAll C p vs (push_back_impl C p v s).2).1,
       (pushAll C p vs (push_back_impl C p v s).2).2)

/-! Generic list and modular-arithmetic helpers. -/

lemma getD_set_self' (l : List β) (i : ℕ) (v d : β) (h : i < l.length) :
    (l.set i v).getD i d = v := by
  simp [List.getD_eq_getElem?_getD, List.getElem?_set_self h]

lemma getD_set_ne' (l : List β) (i j : ℕ) (v d : β) (h : i ≠ j) :
    (l.set i v).getD j d = l.getD j d := by
  simp [List.getD_eq_getElem?_getD, List.getElem?_set_ne h]

lemma getD_map_range (f : ℕ → β) (n j : ℕ) (d : β) (h : j < n) :
    ((List.range n).map f).getD j d = f j := by
  rw [List.getD_eq_getElem?_getD,
      List.getElem?_eq_getElem (by simpa using h)]
  simp

lemma getD_append_left' (l1 l2 : List β) (j : ℕ) (d : β) (h : j < l1.length) :
    (l1 ++ l2).getD j d = l1.getD j d := by
  rw [List.getD_eq_getElem?_getD, List.getD_eq_getElem?_getD,
      List.getElem?_append_left h]

lemma getD_append_right' (l1 l2 : List β) (j : ℕ) (d : β) (h : l1.length ≤ j) :
    (l1 ++ l2).getD j d = l2.getD (j - l1.length) d := by
  rw [List.getD_eq_getElem?_getD, List.getD_eq_getElem?_getD,
      List.getElem?_append_right h]

lemma set_append_length (l1 : List β) (x : β) (l2 : List β) (v : β) :
    (l1 ++ x :: l2).set l1.length v = l1 ++ v :: l2 := by
  induction l1 with
  | nil => rfl
  | cons a l ih => simp only [List.cons_append, List.length_cons, List.set_cons_succ, ih]

lemma list_ext_getD {l1 l2 : List β} (d : β) (hlen : l1.length = l2.length)
    (h : ∀ i, i < l1.length → l1.getD i d = l2.getD i d) : l1 = l2 := by
  apply List.ext_getElem hlen
  intro i h1 h2
  have hi := h i h1
  rw [List.getD_eq_getElem?_getD, List.getD_eq_getElem?_getD,
      List.getElem?_eq_getElem h1, List.getElem?_eq_getElem h2] at hi
  simpa using hi

lemma mod_shift_inj {C t a b : ℕ} :
    (t + a) % C = (t + b) % C ↔ a % C = b % C :=
  ⟨fun h => Nat.ModEq.add_left_cancel' t h, fun h => Nat.ModEq.add_left t h⟩

lemma exists_shift {C : ℕ} (hC : 0 < C) (t j : ℕ) (ht : t < C) (hj : j < C) :
    ∃ k, k < C ∧ j = (t + k) % C := by
  refine ⟨(C + j - t) % C, Nat.mod_lt _ hC, ?_⟩
  have h2 : (t + (C + j - t) % C) % C = (t + (C + j - t)) % C :=
    Nat.ModEq.add_left t (Nat.mod_modEq _ _)
  have h3 : t + (C + j - t) = j + C := by omega
  rw [h2, h3, Nat.add_mod_right, Nat.mod_eq_of_lt hj]

/-! Canonical states: the buffer reached by `k ≤ C` back-insertions into a
default-constructed buffer has the pushed values in slots `0 .. k-1`. -/

/-- The state after pushing the values `vs` (with `vs.length ≤ C`) into a
default-constructed buffer, in order. -/
def canonical (C : ℕ) (vs : List α) : CB α :=
  ⟨vs.map some ++ List.replicate (C - vs.length) none, vs.length % C, 0, vs.length⟩

lemma canonical_nil (C : ℕ) : canonical C ([] : List α) = mk0 C := by
  simp [canonical, mk0]

lemma cb_ext {s t : CB α} (h1 : s.storage = t.storage) (h2 : s.head = t.head)
    (h3 : s.tail = t.tail) (h4 : s.size = t.size) : s = t := by
  cases s; cases t; simp_all

lemma push_back_canonical (C : ℕ) (p : overflow_policy) (v : α) (vs : List α)
    (hC : 0 < C) (hlen : vs.length < C) :
    push_back_impl C p v (canonical C vs) =
      (insert_result.inserted, canonical C (vs ++ [v])) := by
  have hfull : full C (canonical C vs) = false := by
    simp only [full, canonical, beq_eq_false_iff_ne, ne_eq]
    omega
  have hhead : (canonical C vs).head = vs.length := by
    simp [canonical, Nat.mod_eq_of_lt hlen]
  have hstor : (canonical C vs).storage.set (canonical C vs).head (some v)
      = (vs ++ [v]).map some ++ List.replicate (C - (vs ++ [v]).length) none := by
    rw [hhead]
    have hrep : List.replicate (C - vs.length) (none : Option α) =
        none :: List.replicate (C - (vs.length + 1)) none := by
      have h9 : C - vs.length = (C - (vs.length + 1)) + 1 := by omega
      rw [h9, List.replicate_succ]
    show ((vs.map some ++ List.replicate (C - vs.length) none).set vs.length (some v)) = _
    rw [hrep]
    have hlm : vs.length = (vs.map some).length := (List.length_map _ _).symm
    rw [hlm, set_append_length]
    simp [List.length_append]
  have hnext : next_index C (canonical C vs).head = ((vs ++ [v]).length) % C := by
    rw [hhead, next_index_eq_mod hC _ hlen]
    simp [List.length_append]
  unfold push_back_impl
  rw [hfull]
  simp only [Bool.false_eq_true, and_false, if_false]
  refine Prod.ext_iff.mpr ⟨rfl, ?_⟩
  refine cb_ext ?_ ?_ ?_ ?_
  · exact hstor
  · exact hnext
  · rfl
  · show (canonical C vs).size + 1 = (canonical C (vs ++ [v])).size
    simp [canonical, List.length_append]

lemma pushAll_canonical (C : ℕ) (p : overflow_policy) (hC : 0 < C) :
    ∀ (ws vs : List α), vs.length + ws.length ≤ C →
    pushAll C p ws (canonical C vs) =
      (List.replicate ws.length insert_result.inserted, canonical C (vs ++ ws)) := by
  intro ws
  induction ws with
  | nil => intro vs h; simp [pushAll]
  | cons v rest ih =>
    intro vs h
    have hlen : vs.length < C := by
      simp only [List.length_cons] at h
      omega
    have h2 : (vs ++ [v]).length + rest.length ≤ C := by
      simp only [List.length_append, List.length_cons, List.length_nil] at h ⊢
      omega
    show ((push_back_impl C p v (canonical C vs)).1 ::
        (pushAll C p rest (push_back_impl C p v (canonical C vs)).2).1,
        (pushAll C p rest (push_back_impl C p v (canonical C vs)).2).2) = _
    rw [push_back_canonical C p v vs hC hlen]
    show ((insert_result.inserted : insert_result) ::
        (pushAll C p rest (canonical C (vs ++ [v]))).1,
        (pushAll C p rest (canonical C (vs ++ [v]))).2) = _
    rw [ih (vs ++ [v]) h2]
    simp [List.replicate_succ, List.append_assoc]

lemma pushAll_append (C : ℕ) (p : overflow_policy) (l1 l2 : List α) (s : CB α) :
    pushAll C p (l1 ++ l2) s =
      ((pushAll C p l1 s).1 ++ (pushAll C p l2 (pushAll C p l1 s).2).1,
       (pushAll C p l2 (pushAll C p l1 s).2).2) := by
  induction l1 generalizing s with
  | nil => simp [pushAll]
  | cons v rest ih => simp [pushAll, ih]

lemma toList_length (C : ℕ) (s : CB α) : (toList C s).length = s.size := by
  simp [toList]

lemma toList_getD {C : ℕ} (hC : 0 < C) (s : CB α) (i : ℕ) (hi : i < s.size) :
    (toList C s).getD i none = s.storage.getD ((s.tail + i) % C) none := by
  unfold toList
  rw [getD_map_range _ _ _ _ hi]

lemma toList_canonical {C : ℕ} (hC : 0 < C) (vs : List α) (hlen : vs.length ≤ C) :
    toList C (canonical C vs) = vs.map some := by
  apply list_ext_getD (none : Option α)
  · simp [toList_length, canonical]
  · intro i hi
    rw [toList_length] at hi
    have hi' : i < vs.length := by simpa [canonical] using hi
    rw [toList_getD hC _ i (by simpa [canonical] using hi)]
    show (canonical C vs).storage.getD (((canonical C vs).tail + i) % C) none = _
    have htail : (canonical C vs).tail = 0 := rfl
    rw [htail, Nat.zero_add, Nat.mod_eq_of_lt (by omega)]
    show ((vs.map some ++ List.replicate (C - vs.length) none).getD i none) = _
    rw [getD_append_left' _ _ _ _ (by simpa using hi')]

lemma push_back_full (C : ℕ) (p : overflow_policy) (v : α) (s : CB α)
    (hp : p = overflow_policy.overwrite) (hfull : s.size = C) :
    push_back_impl C p v s =
      (insert_result.overwritten,
        { s with storage := s.storage.set s.head (some v),
                 head := next_index C s.head, tail := next_index C s.tail }) := by
  subst hp
  unfold push_back_impl full
  simp [hfull]

lemma push_back_full_discard (C : ℕ) (v : α) (s : CB α) (hfull : s.size = C) :
    push_back_impl C overflow_policy.discard v s = (insert_result.discarded, s) := by
  unfold push_back_impl full
  simp [hfull]

/-- C3: under the overwrite policy, pushing the `C + 1` values `0 .. C`
into an initially empty buffer reports the first `C` pushes as `inserted`
and the last as `overwritten`, leaves the size at `C`, and leaves the
logical contents `[1, 2, ..., C]` (the oldest element evicted). -/
theorem overwrite_push_capacity_plus_one (C : ℕ) (hC : 0 < C) :
    (pushAll C overflow_policy.overwrite (List.range (C + 1)) (mk0 C)).1
      = List.replicate C insert_result.inserted ++ [insert_result.overwritten] ∧
    (pushAll C overflow_policy.overwrite (List.range (C + 1)) (mk0 C)).2.size = C ∧
    toList C (pushAll C overflow_policy.overwrite (List.range (C + 1)) (mk0 C)).2
      = (List.range C).map (fun i => some (i + 1)) := by
  have hsplit := pushAll_append C overflow_policy.overwrite (List.range C) [C] (mk0 C)
  rw [← List.range_succ] at hsplit
  have hfirst := pushAll_canonical C overflow_policy.overwrite hC (List.range C) []
    (by simp)
  rw [canonical_nil] at hfirst
  simp only [List.nil_append, List.length_range] at hfirst
  have hfullstate : (pushAll C overflow_policy.overwrite (List.range C) (mk0 C)).2
      = canonical C (List.range C) := by rw [hfirst]
  have hsz : (canonical C (List.range C)).size = C := by simp [canonical]
  have hlast := push_back_full C overflow_policy.overwrite C
    (canonical C (List.range C)) rfl hsz
  have hpush1 : pushAll C overflow_policy.overwrite [C] (canonical C (List.range C))
      = ([insert_result.overwritten],
         { canonical C (List.range C) with
             storage := (canonical C (List.range C)).storage.set
               (canonical C (List.range C)).head (some C),
             head := next_index C (canonical C (List.range C)).head,
             tail := next_index C (canonical C (List.range C)).tail }) := by
    unfold pushAll
    rw [hlast]
    rfl
  rw [hsplit, hfirst, hpush1]
  have hhead : (canonical C (List.range C)).head = 0 := by
    simp [canonical]
  have htail : (canonical C (List.range C)).tail = 0 := rfl
  have hstor : (canonical C (List.range C)).storage = (List.range C).map some := by
    simp [canonical]
  refine ⟨rfl, by simp [canonical], ?_⟩
  apply list_ext_getD (none : Option ℕ)
  · simp [toList_length, canonical]
  · intro i hi
    rw [toList_length] at hi
    have hi' : i < C := by simpa [canonical] using hi
    rw [toList_getD hC _ i (by simpa [canonical] using hi)]
    show ((canonical C (List.range C)).storage.set (canonical C (List.range C)).head
      (some C)).getD ((next_index C (canonical C (List.range C)).tail + i) % C) none = _
    rw [hhead, htail, hstor, next_index_eq_mod hC _ hC]
    have hmod : ((0 + 1) % C + i) % C = (1 + i) % C := by
      rw [Nat.zero_add]
      exact Nat.ModEq.add_right i (Nat.mod_modEq 1 C)
    rw [hmod, getD_map_range _ _ _ _ hi']
    by_cases hcase : i + 1 < C
    · have h1 : (1 + i) % C = 1 + i := Nat.mod_eq_of_lt (by omega)
      rw [h1, getD_set_ne' _ _ _ _ _ (by omega)]
      rw [getD_map_range _ _ _ _ (by omega : 1 + i < C)]
      congr 1
      omega
    · have hiC : i + 1 = C := by omega
      have h1 : (1 + i) % C = 0 := by
        have : 1 + i = C := by omega
        simp [this]
      rw [h1, getD_set_self' _ _ _ _ (by simp [List.length_map]; omega)]
      rw [hiC]

/-- Witness for C3 at `C = 3`. -/
theorem overwrite_push_capacity_plus_one_witness :
    (pushAll 3 overflow_policy.overwrite (List.range 4) (mk0 3)).1
      = List.replicate 3 insert_result.inserted ++ [insert_result.overwritten] ∧
    (pushAll 3 overflow_policy.overwrite (List.range 4) (mk0 3)).2.size = 3 ∧
    toList 3 (pushAll 3 overflow_policy.overwrite (List.range 4) (mk0 3)).2
      = (List.range 3).map (fun i => some (i + 1)) :=
  overwrite_push_capacity_plus_one 3 (by decide)

/-- C4: under the discard policy, `push_back` and `emplace_back` on a full
buffer return `discarded` and change nothing; pushing the `C + 1` values
`0 .. C` into an initially empty buffer therefore leaves the contents
`[0, ..., C-1]` with the last outcome `discarded`. -/
theorem discard_policy_full_push_noop (C : ℕ) {α : Type} (v : α) (s : CB α)
    (hC : 0 < C) (hfull : s.size = C) :
    push_back_impl C overflow_policy.discard v s = (insert_result.discarded, s) ∧
    emplace_back_impl C overflow_policy.discard v s = (insert_result.discarded, s) ∧
    (pushAll C overflow_policy.discard (List.range (C + 1)) (mk0 C)).1
      = List.replicate C insert_result.inserted ++ [insert_result.discarded] ∧
    toList C (pushAll C overflow_policy.discard (List.range (C + 1)) (mk0 C)).2
      = (List.range C).map some := by
  have hsplit := pushAll_append C overflow_policy.discard (List.range C) [C] (mk0 C)
  rw [← List.range_succ] at hsplit
  have hfirst := pushAll_canonical C overflow_policy.discard hC (List.range C) []
    (by simp)
  rw [canonical_nil] at hfirst
  simp only [List.nil_append, List.length_range] at hfirst
  have hsz : (canonical C (List.range C)).size = C := by simp [canonical]
  have hlast := push_back_full_discard C (C : ℕ) (canonical C (List.range C)) hsz
  have hpush1 : pushAll C overflow_policy.discard [C] (canonical C (List.range C))
      = ([insert_result.discarded], canonical C (List.range C)) := by
    unfold pushAll
    rw [hlast]
    rfl
  refine ⟨push_back_full_discard C v s hfull, ?_, ?_, ?_⟩
  · unfold emplace_back_impl full
    simp [hfull]
  · rw [hsplit, hfirst, hpush1]
  · rw [hsplit, hfirst, hpush1]
    exact toList_canonical hC (List.range C) (by simp)

/-- Witness for C4 at `C = 2`, on the full buffer reached by pushing
`10` and `20`. -/
theorem discard_policy_full_push_noop_witness :
    push_back_impl 2 overflow_policy.discard 30
        (pushAll 2 overflow_policy.discard [10, 20] (mk0 2)).2
      = (insert_result.discarded, (pushAll 2 overflow_policy.discard [10, 20] (mk0 2)).2) ∧
    emplace_back_impl 2 overflow_policy.discard 30
        (pushAll 2 overflow_policy.discard [10, 20] (mk0 2)).2
      = (insert_result.discarded, (pushAll 2 overflow_policy.discard [10, 20] (mk0 2)).2) ∧
    (pushAll 2 overflow_policy.discard (List.range 3) (mk0 2)).1
      = List.replicate 2 insert_result.inserted ++ [insert_result.discarded] ∧
    toList 2 (pushAll 2 overflow_policy.discard (List.range 3) (mk0 2)).2
      = (List.range 2).map some :=
  discard_policy_full_push_noop 2 30 (pushAll 2 overflow_policy.discard [10, 20] (mk0 2)).2
    (by decide) (by decide)

lemma fillLoop_eq_pushAll (C : ℕ) (p : overflow_policy) (v : α) :
    ∀ (n : ℕ) (s : CB α), fillLoop C p v n s = (pushAll C p (List.replicate n v) s).2 := by
  intro n
  induction n with
  | zero => intro s; rfl
  | succ n ih =>
    intro s
    simp only [fillLoop, List.replicate_succ, pushAll, ih]

/-- C10: for every value `v` and under both overflow policies, the fill
constructor produces a full buffer (`size = capacity`, `full()` true) with
every logical element equal to `v`, and each of its `Capacity`
back-insertions reports `inserted` (none overflows). -/
theorem fill_ctor_produces_full_buffer (C : ℕ) {α : Type} (p : overflow_policy) (v : α)
    (hC : 0 < C) :
    (fill_ctor C p v).size = C ∧
    full C (fill_ctor C p v) = true ∧
    toList C (fill_ctor C p v) = List.replicate C (some v) ∧
    (pushAll C p (List.replicate C v) (mk0 C)).1
      = List.replicate C insert_result.inserted := by
  have hcanon := pushAll_canonical C p hC (List.replicate C v) [] (by simp)
  rw [canonical_nil] at hcanon
  simp only [List.nil_append, List.length_replicate] at hcanon
  have hfill : fill_ctor C p v = canonical C (List.replicate C v) := by
    unfold fill_ctor
    rw [fillLoop_eq_pushAll, hcanon]
  refine ⟨?_, ?_, ?_, ?_⟩
  · rw [hfill]; simp [canonical]
  · rw [hfill]; simp [full, canonical]
  · rw [hfill, toList_canonical hC _ (by simp)]
    simp
  · rw [hcanon]

/-- Witness for C10 at `C = 3`, overwrite policy, `v = 7`. -/
theorem fill_ctor_produces_full_buffer_witness :
    (fill_ctor 3 overflow_policy.overwrite (7 : ℕ)).size = 3 ∧
    full 3 (fill_ctor 3 overflow_policy.overwrite (7 : ℕ)) = true ∧
    toList 3 (fill_ctor 3 overflow_policy.overwrite (7 : ℕ)) = List.replicate 3 (some 7) ∧
    (pushAll 3 overflow_policy.overwrite (List.replicate 3 (7 : ℕ)) (mk0 3)).1
      = List.replicate 3 insert_result.inserted :=
  fill_ctor_produces_full_buffer 3 overflow_policy.overwrite 7 (by decide)

lemma getD_take (l : List β) (m i : ℕ) (d : β) (h : i < m) :
    (l.take m).getD i d = l.getD i d := by
  rw [List.getD_eq_getElem?_getD, List.getD_eq_getElem?_getD, List.getElem?_take_of_lt h]

lemma getD_drop (l : List β) (m i : ℕ) (d : β) :
    (l.drop m).getD i d = l.getD (m + i) d := by
  rw [List.getD_eq_getElem?_getD, List.getD_eq_getElem?_getD, List.getElem?_drop]

/-- C7 counterexample: for `IndexType = uint32_t` (`w = 32`) and the
allowed capacity `3 * 2^30`, on a full buffer with `tail = Capacity - 1`,
the accessors at in-range logical index `Capacity - 2` read the slot at
`physical_index = ((tail + i) mod 2^32) % Capacity = 2^31 - 3`, not at
the mathematical position `(tail + i) mod Capacity = Capacity - 3`
(`physical_index` depends only on `tail` and `i`, so the storage field is
irrelevant to the computed position). -/
theorem at_physical_position_wrap_counterexample :
    physical_index 32 3221225472
        (⟨[], 0, 3221225471, 3221225472⟩ : CB ℕ) 3221225470
      ≠ (3221225471 + 3221225470) % 3221225472 := by decide

/-- C7 (amended): the checked accessor `at` signals `std::out_of_range`
exactly when `index >= size()`; on an in-range index it returns the same
element as `operator[]`, the slot at `physical_index(index)`, which
equals the mathematical position `(tail + index) % capacity` whenever the
`w`-bit sum `tail + index` does not wrap — and always when the capacity
is a power of two, the bitmask absorbing the wrap.  Both accessors are
observers: they take the state and return only a value, so the buffer
state is unchanged. -/
theorem at_checked_access_amended (w C : ℕ) {α : Type} (s : CB α) (i : ℕ)
    (hC : 0 < C) (hw : C < 2 ^ w) :
    ((∃ e, at_acc w C s i = Except.error e) ↔ s.size ≤ i) ∧
    (i < s.size → at_acc w C s i = Except.ok (op_index w C s i)) ∧
    (s.tail + i < 2 ^ w →
      op_index w C s i = s.storage.getD ((s.tail + i) % C) none) ∧
    (C &&& (C - 1) = 0 →
      op_index w C s i = s.storage.getD ((s.tail + i) % C) none) := by
  refine ⟨?_, ?_, ?_, ?_⟩
  · constructor
    · rintro ⟨e, he⟩
      by_contra h
      push_neg at h
      unfold at_acc at he
      rw [if_neg (by omega)] at he
      cases he
    · intro h
      exact ⟨_, by unfold at_acc; rw [if_pos h]⟩
  · intro h
    unfold at_acc op_index
    rw [if_neg (by omega)]
  · intro hik
    unfold op_index physical_index
    rw [add_index_eq_mod hC _ _ hik]
  · intro hmask
    unfold op_index physical_index
    rw [add_index_pow2_eq_mod hC hw hmask]

/-- Witness for C7 at `w = 32`, `C = 3`, on the buffer holding `[5, 6]`,
index `1`. -/
theorem at_checked_access_amended_witness :
    ((∃ e, at_acc 32 3 (pushAll 3 overflow_policy.overwrite [5, 6] (mk0 3)).2 1
        = Except.error e) ↔
      (pushAll 3 overflow_policy.overwrite [5, 6] (mk0 3)).2.size ≤ 1) ∧
    (1 < (pushAll 3 overflow_policy.overwrite [5, 6] (mk0 3)).2.size →
      at_acc 32 3 (pushAll 3 overflow_policy.overwrite [5, 6] (mk0 3)).2 1
        = Except.ok (op_index 32 3 (pushAll 3 overflow_policy.overwrite [5, 6] (mk0 3)).2 1)) ∧
    ((pushAll 3 overflow_policy.overwrite [5, 6] (mk0 3)).2.tail + 1 < 2 ^ 32 →
      op_index 32 3 (pushAll 3 overflow_policy.overwrite [5, 6] (mk0 3)).2 1
        = (pushAll 3 overflow_policy.overwrite [5, 6] (mk0 3)).2.storage.getD
            (((pushAll 3 overflow_policy.overwrite [5, 6] (mk0 3)).2.tail + 1) % 3) none) ∧
    (3 &&& (3 - 1) = 0 →
      op_index 32 3 (pushAll 3 overflow_policy.overwrite [5, 6] (mk0 3)).2 1
        = (pushAll 3 overflow_policy.overwrite [5, 6] (mk0 3)).2.storage.getD
            (((pushAll 3 overflow_policy.overwrite [5, 6] (mk0 3)).2.tail + 1) % 3) none) :=
  at_checked_access_amended 32 3 (pushAll 3 overflow_policy.overwrite [5, 6] (mk0 3)).2 1
    (by decide) (by decide)

/-- C5: under the overwrite policy, `push_front` on a full buffer reports
`overwritten`, keeps the size at capacity, and yields contents
`v :: old.dropLast` — the newest (back) element is evicted — while
`push_back` on a full buffer yields `old.drop 1 ++ [v]` — the oldest
(front) element is evicted.  (`head = tail` is the full-buffer cursor
relation.) -/
theorem push_front_full_overwrite_evicts_back (w C : ℕ) {α : Type} (v : α) (s : CB α)
    (hC : 0 < C) (hw : C < 2 ^ w) (hlen : s.storage.length = C) (htail : s.tail < C)
    (hht : s.head = s.tail) (hfull : s.size = C) :
    (push_front_impl w C overflow_policy.overwrite v s).1 = insert_result.overwritten ∧
    (push_front_impl w C overflow_policy.overwrite v s).2.size = C ∧
    toList C (push_front_impl w C overflow_policy.overwrite v s).2
      = some v :: (toList C s).dropLast ∧
    (push_back_impl C overflow_policy.overwrite v s).1 = insert_result.overwritten ∧
    (push_back_impl C overflow_policy.overwrite v s).2.size = C ∧
    toList C (push_back_impl C overflow_policy.overwrite v s).2
      = (toList C s).drop 1 ++ [some v] := by
  have hfullb : full C s = true := by simp [full, hfull]
  have hpf : push_front_impl w C overflow_policy.overwrite v s =
      (insert_result.overwritten,
        { s with storage := s.storage.set (prev_index w C s.tail) (some v),
                 head := prev_index w C s.head,
                 tail := prev_index w C s.tail }) := by
    unfold push_front_impl
    rw [hfullb]
    simp
  have hpb : push_back_impl C overflow_policy.overwrite v s =
      (insert_result.overwritten,
        { s with storage := s.storage.set s.head (some v),
                 head := next_index C s.head, tail := next_index C s.tail }) := by
    unfold push_back_impl
    rw [hfullb]
    simp
  have hprevt : prev_index w C s.tail = (s.tail + (C - 1)) % C :=
    prev_index_eq_mod hC hw s.tail htail
  have hprevlt : prev_index w C s.tail < C := by
    rw [hprevt]; exact Nat.mod_lt _ hC
  refine ⟨by rw [hpf], by rw [hpf]; exact hfull, ?_, by rw [hpb], by rw [hpb]; exact hfull, ?_⟩
  · rw [hpf]
    apply list_ext_getD (none : Option α)
    · simp [toList_length, hfull, List.length_dropLast, toList_length]
      omega
    · intro i hi
      rw [toList_length] at hi
      have hiC : i < C := by simpa [hfull] using hi
      rw [toList_getD hC _ i (by simpa using hi)]
      show (s.storage.set (prev_index w C s.tail) (some v)).getD
        ((prev_index w C s.tail + i) % C) none = _
      cases i with
      | zero =>
        rw [Nat.add_zero, Nat.mod_eq_of_lt hprevlt,
            getD_set_self' _ _ _ _ (by rw [hlen]; exact hprevlt)]
        rfl
      | succ i' =>
        have hslot : (prev_index w C s.tail + (i' + 1)) % C = (s.tail + i') % C := by
          rw [hprevt, Nat.mod_add_mod]
          have h9 : s.tail + (C - 1) + (i' + 1) = s.tail + i' + C := by omega
          rw [h9, Nat.add_mod_right]
        have hne : prev_index w C s.tail ≠ (s.tail + i') % C := by
          rw [hprevt]
          intro heq
          have := mod_shift_inj.mp heq
          rw [Nat.mod_eq_of_lt (by omega : C - 1 < C),
              Nat.mod_eq_of_lt (by omega : i' < C)] at this
          omega
        rw [hslot, getD_set_ne' _ _ _ _ _ hne,
            ← toList_getD hC s i' (by omega)]
        rw [List.getD_cons_succ, List.dropLast_eq_take,
            getD_take _ _ _ _ (by rw [toList_length]; omega)]
  · rw [hpb]
    apply list_ext_getD (none : Option α)
    · simp [toList_length, hfull]
      omega
    · intro i hi
      rw [toList_length] at hi
      have hiC : i < C := by simpa [hfull] using hi
      rw [toList_getD hC _ i (by simpa using hi)]
      show (s.storage.set s.head (some v)).getD ((next_index C s.tail + i) % C) none = _
      rw [next_index_eq_mod hC _ htail, Nat.mod_add_mod, hht]
      by_cases hcase : i + 1 < C
      · have hne : s.tail ≠ (s.tail + 1 + i) % C := by
          intro heq
          have heq' : (s.tail + 0) % C = (s.tail + (1 + i)) % C := by
            rw [Nat.add_zero, Nat.mod_eq_of_lt htail]
            rw [heq]
            congr 1
            omega
          have := mod_shift_inj.mp heq'
          rw [Nat.zero_mod, Nat.mod_eq_of_lt (by omega : 1 + i < C)] at this
          omega
        have harr : s.tail + 1 + i = s.tail + (i + 1) := by omega
        rw [getD_set_ne' _ _ _ _ _ hne, harr, ← toList_getD hC s (i + 1) (by omega)]
        rw [getD_append_left' _ _ _ _
          (by rw [List.length_drop, toList_length]; omega)]
        rw [getD_drop]
        congr 1
        omega
      · have hiC1 : i + 1 = C := by omega
        have hslot : (s.tail + 1 + i) % C = s.tail := by
          have h9 : s.tail + 1 + i = s.tail + C := by omega
          rw [h9, Nat.add_mod_right, Nat.mod_eq_of_lt htail]
        rw [hslot, getD_set_self' _ _ _ _ (by rw [hlen]; exact htail)]
        rw [getD_append_right' _ _ _ _
          (by rw [List.length_drop, toList_length]; omega)]
        have h9 : i - ((toList C s).drop 1).length = 0 := by
          rw [List.length_drop, toList_length]
          omega
        rw [h9]
        rfl

/-- Witness for C5 at `w = 32`, `C = 3`, on the full buffer `[10, 20, 30]`,
pushing `99`. -/
theorem push_front_full_overwrite_evicts_back_witness :
    (push_front_impl 32 3 overflow_policy.overwrite 99
        (pushAll 3 overflow_policy.overwrite [10, 20, 30] (mk0 3)).2).1
      = insert_result.overwritten ∧
    (push_front_impl 32 3 overflow_policy.overwrite 99
        (pushAll 3 overflow_policy.overwrite [10, 20, 30] (mk0 3)).2).2.size = 3 ∧
    toList 3 (push_front_impl 32 3 overflow_policy.overwrite 99
        (pushAll 3 overflow_policy.overwrite [10, 20, 30] (mk0 3)).2).2
      = some 99 :: (toList 3 (pushAll 3 overflow_policy.overwrite [10, 20, 30] (mk0 3)).2).dropLast ∧
    (push_back_impl 3 overflow_policy.overwrite 99
        (pushAll 3 overflow_policy.overwrite [10, 20, 30] (mk0 3)).2).1
      = insert_result.overwritten ∧
    (push_back_impl 3 overflow_policy.overwrite 99
        (pushAll 3 overflow_policy.overwrite [10, 20, 30] (mk0 3)).2).2.size = 3 ∧
    toList 3 (push_back_impl 3 overflow_policy.overwrite 99
        (pushAll 3 overflow_policy.overwrite [10, 20, 30] (mk0 3)).2).2
      = (toList 3 (pushAll 3 overflow_policy.overwrite [10, 20, 30] (mk0 3)).2).drop 1
          ++ [some 99] :=
  push_front_full_overwrite_evicts_back 32 3 99
    (pushAll 3 overflow_policy.overwrite [10, 20, 30] (mk0 3)).2
    (by decide) (by decide) (by decide) (by decide) (by decide) (by decide)

/-- C6: `pop_back_safe` / `pop_front_safe` on an empty buffer return no
value and leave the state unchanged; on a non-empty buffer they return the
endpoint slot (`back()` respectively `front()`), decrement the size by
one, and remove exactly that endpoint element, keeping the rest in
logical order. -/
theorem pop_safe_endpoints (w C : ℕ) {α : Type} (s : CB α)
    (hC : 0 < C) (hw : C < 2 ^ w) (hlen : s.storage.length = C) (htail : s.tail < C)
    (hhr : s.head = (s.tail + s.size) % C) (hsz : s.size ≤ C) :
    (s.size = 0 → pop_back_safe w C s = (none, s) ∧ pop_front_safe C s = (none, s)) ∧
    (s.size ≠ 0 →
      (pop_back_safe w C s).1 = (toList C s).getD (s.size - 1) none ∧
      (pop_back_safe w C s).2.size = s.size - 1 ∧
      toList C (pop_back_safe w C s).2 = (toList C s).dropLast ∧
      (pop_front_safe C s).1 = (toList C s).getD 0 none ∧
      (pop_front_safe C s).2.size = s.size - 1 ∧
      toList C (pop_front_safe C s).2 = (toList C s).drop 1) := by
  constructor
  · intro h0
    constructor
    · unfold pop_back_safe; rw [if_pos h0]
    · unfold pop_front_safe; rw [if_pos h0]
  · intro hne
    have hheadlt : s.head < C := by rw [hhr]; exact Nat.mod_lt _ hC
    have hprev : prev_index w C s.head = (s.tail + (s.size - 1)) % C := by
      rw [prev_index_eq_mod hC hw s.head hheadlt, hhr, Nat.mod_add_mod]
      have h9 : s.tail + s.size + (C - 1) = s.tail + (s.size - 1) + C := by omega
      rw [h9, Nat.add_mod_right]
    have hprevlt : prev_index w C s.head < C := by
      rw [hprev]; exact Nat.mod_lt _ hC
    have hpb : pop_back_safe w C s = (back_val w C s, pop_back w C s) := by
      unfold pop_back_safe; rw [if_neg hne]
    have hpf : pop_front_safe C s = (front_val s, pop_front C s) := by
      unfold pop_front_safe; rw [if_neg hne]
    refine ⟨?_, ?_, ?_, ?_, ?_, ?_⟩
    · rw [hpb]
      show back_val w C s = _
      unfold back_val
      rw [hprev, ← toList_getD hC s (s.size - 1) (by omega)]
    · rw [hpb]; rfl
    · rw [hpb]
      show toList C (pop_back w C s) = _
      apply list_ext_getD (none : Option α)
      · rw [toList_length, List.length_dropLast, toList_length]; rfl
      · intro i hi
        rw [toList_length] at hi
        have hi' : i < s.size - 1 := hi
        rw [toList_getD hC _ i hi]
        show (s.storage.set (prev_index w C s.head) none).getD ((s.tail + i) % C) none = _
        have hne2 : prev_index w C s.head ≠ (s.tail + i) % C := by
          rw [hprev]
          intro heq
          have := mod_shift_inj.mp heq
          rw [Nat.mod_eq_of_lt (by omega : s.size - 1 < C),
              Nat.mod_eq_of_lt (by omega : i < C)] at this
          omega
        rw [getD_set_ne' _ _ _ _ _ hne2, ← toList_getD hC s i (by omega),
            List.dropLast_eq_take, getD_take _ _ _ _ (by rw [toList_length]; omega)]
    · rw [hpf]
      show front_val s = _
      unfold front_val
      rw [toList_getD hC s 0 (by omega), Nat.add_zero, Nat.mod_eq_of_lt htail]
    · rw [hpf]; rfl
    · rw [hpf]
      show toList C (pop_front C s) = _
      apply list_ext_getD (none : Option α)
      · rw [toList_length, List.length_drop, toList_length]; rfl
      · intro i hi
        rw [toList_length] at hi
        have hi' : i < s.size - 1 := hi
        rw [toList_getD hC _ i hi]
        show (s.storage.set s.tail none).getD ((next_index C s.tail + i) % C) none = _
        rw [next_index_eq_mod hC _ htail, Nat.mod_add_mod]
        have hne2 : s.tail ≠ (s.tail + 1 + i) % C := by
          intro heq
          have heq' : (s.tail + 0) % C = (s.tail + (1 + i)) % C := by
            rw [Nat.add_zero, Nat.mod_eq_of_lt htail, heq]
            congr 1
            omega
          have := mod_shift_inj.mp heq'
          rw [Nat.zero_mod, Nat.mod_eq_of_lt (by omega : 1 + i < C)] at this
          omega
        have harr : s.tail + 1 + i = s.tail + (1 + i) := by omega
        rw [getD_set_ne' _ _ _ _ _ hne2, harr, ← toList_getD hC s (1 + i) (by omega),
            getD_drop]

/-- Witness for C6 at `w = 32`, `C = 3`, on the buffer holding `[4, 5]`. -/
theorem pop_safe_endpoints_witness :
    ((pushAll 3 overflow_policy.overwrite [4, 5] (mk0 3)).2.size = 0 →
      pop_back_safe 32 3 (pushAll 3 overflow_policy.overwrite [4, 5] (mk0 3)).2
        = (none, (pushAll 3 overflow_policy.overwrite [4, 5] (mk0 3)).2) ∧
      pop_front_safe 3 (pushAll 3 overflow_policy.overwrite [4, 5] (mk0 3)).2
        = (none, (pushAll 3 overflow_policy.overwrite [4, 5] (mk0 3)).2)) ∧
    ((pushAll 3 overflow_policy.overwrite [4, 5] (mk0 3)).2.size ≠ 0 →
      (pop_back_safe 32 3 (pushAll 3 overflow_policy.overwrite [4, 5] (mk0 3)).2).1
        = (toList 3 (pushAll 3 overflow_policy.overwrite [4, 5] (mk0 3)).2).getD
            ((pushAll 3 overflow_policy.overwrite [4, 5] (mk0 3)).2.size - 1) none ∧
      (pop_back_safe 32 3 (pushAll 3 overflow_policy.overwrite [4, 5] (mk0 3)).2).2.size
        = (pushAll 3 overflow_policy.overwrite [4, 5] (mk0 3)).2.size - 1 ∧
      toList 3 (pop_back_safe 32 3 (pushAll 3 overflow_policy.overwrite [4, 5] (mk0 3)).2).2
        = (toList 3 (pushAll 3 overflow_policy.overwrite [4, 5] (mk0 3)).2).dropLast ∧
      (pop_front_safe 3 (pushAll 3 overflow_policy.overwrite [4, 5] (mk0 3)).2).1
        = (toList 3 (pushAll 3 overflow_policy.overwrite [4, 5] (mk0 3)).2).getD 0 none ∧
      (pop_front_safe 3 (pushAll 3 overflow_policy.overwrite [4, 5] (mk0 3)).2).2.size
        = (pushAll 3 overflow_policy.overwrite [4, 5] (mk0 3)).2.size - 1 ∧
      toList 3 (pop_front_safe 3 (pushAll 3 overflow_policy.overwrite [4, 5] (mk0 3)).2).2
        = (toList 3 (pushAll 3 overflow_policy.overwrite [4, 5] (mk0 3)).2).drop 1) :=
  pop_safe_endpoints 32 3 (pushAll 3 overflow_policy.overwrite [4, 5] (mk0 3)).2
    (by decide) (by decide) (by decide) (by decide) (by decide) (by decide)

/-! Characterization of the copy loop and of `destroy_all`. -/

lemma copyLoop_canon {C : ℕ} (hC : 0 < C) (src : List (Option α)) :
    ∀ (n : ℕ) (acc rest : List (Option α)) (sc dh : ℕ),
      acc.length + n ≤ C → acc.length + rest.length = C →
      dh = acc.length % C → sc < C →
      copyLoop C n (acc ++ rest) dh src sc
        = (acc ++ (List.range n).map (fun m => src.getD ((sc + m) % C) none)
             ++ rest.drop n,
           (acc.length + n) % C) := by
  intro n
  induction n with
  | zero =>
    intro acc rest sc dh h1 h2 h3 h4
    subst h3
    simp [copyLoop]
  | succ n ih =>
    intro acc rest sc dh h1 h2 h3 h4
    have hlt : acc.length < C := by omega
    have h3' : dh = acc.length := by rw [h3, Nat.mod_eq_of_lt hlt]
    subst h3'
    obtain ⟨r, rest', hr⟩ : ∃ r rest', rest = r :: rest' := by
      cases rest with
      | nil => exfalso; simp at h2; omega
      | cons r rest' => exact ⟨r, rest', rfl⟩
    subst hr
    simp only [List.length_cons] at h2
    show copyLoop C n ((acc ++ r :: rest').set acc.length (src.getD sc none))
        (next_index C acc.length) src (next_index C sc) = _
    rw [set_append_length, next_index_eq_mod hC _ hlt, next_index_eq_mod hC _ h4,
        List.append_cons acc (src.getD sc none) rest']
    have hlen1 : (acc ++ [src.getD sc none]).length = acc.length + 1 := by simp
    have ob1 : (acc ++ [src.getD sc none]).length + n ≤ C := by rw [hlen1]; omega
    have ob2 : (acc ++ [src.getD sc none]).length + rest'.length = C := by
      rw [hlen1]; omega
    have ob3 : (acc.length + 1) % C = (acc ++ [src.getD sc none]).length % C := by
      rw [hlen1]
    have := ih (acc ++ [src.getD sc none]) rest' ((sc + 1) % C) ((acc.length + 1) % C)
      ob1 ob2 ob3 (Nat.mod_lt _ hC)
    rw [this]
    refine Prod.ext_iff.mpr ⟨?_, by
      rw [hlen1]
      have h8 : acc.length + 1 + n = acc.length + (n + 1) := by omega
      rw [h8]⟩
    show (acc ++ [src.getD sc none]) ++ _ ++ rest'.drop n
        = acc ++ (List.range (n + 1)).map _ ++ (r :: rest').drop (n + 1)
    rw [List.drop_succ_cons, List.range_succ_eq_map, List.map_cons, List.map_map]
    have hmap : (List.map (fun m => src.getD (((sc + 1) % C + m) % C) none) (List.range n))
        = List.map ((fun m => src.getD ((sc + m) % C) none) ∘ Nat.succ) (List.range n) := by
      apply List.map_congr_left
      intro a _
      show src.getD (((sc + 1) % C + a) % C) none = src.getD ((sc + (a + 1)) % C) none
      rw [Nat.mod_add_mod]
      congr 2
      omega
    rw [hmap]
    have hz : src.getD ((sc + 0) % C) none = src.getD sc none := by
      rw [Nat.add_zero, Nat.mod_eq_of_lt h4]
    rw [hz]
    simp [List.append_assoc]

lemma destroyLoop_length (C : ℕ) :
    ∀ (n : ℕ) (st : List (Option α)) (cur : ℕ),
      (destroyLoop C n st cur).length = st.length := by
  intro n
  induction n with
  | zero => intro st cur; rfl
  | succ n ih => intro st cur; rw [destroyLoop, ih, List.length_set]

/-- The destination produced by the copy loop from a fresh cursor: the
source's logical contents laid out from physical index `0`. -/
lemma copyLoop_from_zero {C : ℕ} (hC : 0 < C) (other : CB α)
    (hsz : other.size ≤ C) (ht : other.tail < C)
    (rest : List (Option α)) (hrest : rest.length = C) :
    copyLoop C other.size rest 0 other.storage other.tail
      = ((List.range other.size).map
            (fun m => other.storage.getD ((other.tail + m) % C) none)
          ++ rest.drop other.size,
         other.size % C) := by
  have h0 : rest = [] ++ rest := rfl
  rw [h0, copyLoop_canon hC other.storage other.size [] rest other.tail 0
    (by simp; omega) (by simp [hrest]) (by simp) ht]
  simp

/-- The logical contents of a state of the shape produced by the copy
loop equal the source's logical contents. -/
lemma toList_copy_shape {C : ℕ} (hC : 0 < C) (other : CB α)
    (hsz : other.size ≤ C) (junk : List (Option α)) :
    toList C (⟨(List.range other.size).map
        (fun m => other.storage.getD ((other.tail + m) % C) none) ++ junk,
        other.size % C, 0, other.size⟩ : CB α) = toList C other := by
  apply list_ext_getD (none : Option α)
  · rw [toList_length, toList_length]
  · intro i hi
    rw [toList_length] at hi
    have hi' : i < other.size := hi
    rw [toList_getD hC _ i hi, toList_getD hC other i hi']
    show ((List.range other.size).map _ ++ junk).getD ((0 + i) % C) none = _
    rw [Nat.zero_add, Nat.mod_eq_of_lt (by omega : i < C),
        getD_append_left' _ _ _ _ (by simp; omega),
        getD_map_range _ _ _ _ hi']

/-- C9: copy construction and copy assignment produce a buffer with the
same size and the same logical contents as the source; self copy
assignment (the `this != &other` test, `sameObject = true`) is a no-op.
Independence holds by construction: the copy's storage is a freshly
written list sharing no mutable state with the source, and the source is
an unchanged input value. -/
theorem copy_preserves_contents_and_self_assign_noop (C : ℕ) {α : Type}
    (other dst s : CB α) (hC : 0 < C) (hsz : other.size ≤ C) (ht : other.tail < C)
    (hdlen : dst.storage.length = C) :
    (copy_ctor C other).size = other.size ∧
    toList C (copy_ctor C other) = toList C other ∧
    (copy_assign C false dst other).size = other.size ∧
    toList C (copy_assign C false dst other) = toList C other ∧
    copy_assign C true s s = s := by
  have hc : copy_ctor C other
      = ⟨(List.range other.size).map
            (fun m => other.storage.getD ((other.tail + m) % C) none)
          ++ (List.replicate C (none : Option α)).drop other.size,
         other.size % C, 0, other.size⟩ := by
    unfold copy_ctor
    rw [copyLoop_from_zero hC other hsz ht _ (by simp)]
  have hd : (destroy_all C dst).storage.length = C := by
    unfold destroy_all
    rw [destroyLoop_length, hdlen]
  have ha : copy_assign C false dst other
      = ⟨(List.range other.size).map
            (fun m => other.storage.getD ((other.tail + m) % C) none)
          ++ ((destroy_all C dst).storage).drop other.size,
         other.size % C, 0, other.size⟩ := by
    have ha0 : copy_assign C false dst other
        = ⟨(copyLoop C other.size (destroy_all C dst).storage 0
              other.storage other.tail).1,
           (copyLoop C other.size (destroy_all C dst).storage 0
              other.storage other.tail).2,
           0, other.size⟩ := rfl
    rw [ha0, copyLoop_from_zero hC other hsz ht _ hd]
  refine ⟨by rw [hc], ?_, by rw [ha], ?_, by unfold copy_assign; rw [if_pos rfl]⟩
  · rw [hc]; exact toList_copy_shape hC other hsz _
  · rw [ha]; exact toList_copy_shape hC other hsz _

/-- Witness for C9 at `C = 3`, source `[8, 9]`, destination `[1, 2, 3]`,
self-assigned buffer `[4]`. -/
theorem copy_preserves_contents_and_self_assign_noop_witness :
    (copy_ctor 3 (pushAll 3 overflow_policy.overwrite [8, 9] (mk0 3)).2).size
      = (pushAll 3 overflow_policy.overwrite [8, 9] (mk0 3)).2.size ∧
    toList 3 (copy_ctor 3 (pushAll 3 overflow_policy.overwrite [8, 9] (mk0 3)).2)
      = toList 3 (pushAll 3 overflow_policy.overwrite [8, 9] (mk0 3)).2 ∧
    (copy_assign 3 false (pushAll 3 overflow_policy.overwrite [1, 2, 3] (mk0 3)).2
        (pushAll 3 overflow_policy.overwrite [8, 9] (mk0 3)).2).size
      = (pushAll 3 overflow_policy.overwrite [8, 9] (mk0 3)).2.size ∧
    toList 3 (copy_assign 3 false (pushAll 3 overflow_policy.overwrite [1, 2, 3] (mk0 3)).2
        (pushAll 3 overflow_policy.overwrite [8, 9] (mk0 3)).2)
      = toList 3 (pushAll 3 overflow_policy.overwrite [8, 9] (mk0 3)).2 ∧
    copy_assign 3 true (pushAll 3 overflow_policy.overwrite [4] (mk0 3)).2
        (pushAll 3 overflow_policy.overwrite [4] (mk0 3)).2
      = (pushAll 3 overflow_policy.overwrite [4] (mk0 3)).2 :=
  copy_preserves_contents_and_self_assign_noop 3
    (pushAll 3 overflow_policy.overwrite [8, 9] (mk0 3)).2
    (pushAll 3 overflow_policy.overwrite [1, 2, 3] (mk0 3)).2
    (pushAll 3 overflow_policy.overwrite [4] (mk0 3)).2
    (by decide) (by decide) (by decide) (by decide)

/-- C8: move construction and move assignment leave the source empty
(`size = 0`, `empty()` true) and the destination holding exactly the
source's logical contents in order, in both the inline-storage case
(element-wise move, then the source is destroyed) and the heap-storage
case (the allocation and all cursors transfer verbatim). -/
theorem move_empties_source_preserves_contents (C : ℕ) {α : Type}
    (other dst : CB α) (hC : 0 < C) (hsz : other.size ≤ C) (ht : other.tail < C)
    (hdlen : dst.storage.length = C) :
    toList C (move_ctor_inline C other).1 = toList C other ∧
    (move_ctor_inline C other).2.size = 0 ∧
    isEmpty (move_ctor_inline C other).2 = true ∧
    toList C (move_assign_inline C dst other).1 = toList C other ∧
    (move_assign_inline C dst other).2.size = 0 ∧
    isEmpty (move_assign_inline C dst other).2 = true ∧
    (move_ctor_heap other).1 = other ∧
    (move_ctor_heap other).2.size = 0 ∧
    isEmpty (move_ctor_heap other).2 = true ∧
    (move_assign_heap other).1 = other ∧
    (move_assign_heap other).2.size = 0 ∧
    isEmpty (move_assign_heap other).2 = true := by
  have hd : (destroy_all C dst).storage.length = C := by
    unfold destroy_all
    rw [destroyLoop_length, hdlen]
  have hmc : (move_ctor_inline C other).1
      = ⟨(List.range other.size).map
            (fun m => other.storage.getD ((other.tail + m) % C) none)
          ++ (List.replicate C (none : Option α)).drop other.size,
         other.size % C, 0, other.size⟩ := by
    unfold move_ctor_inline
    rw [copyLoop_from_zero hC other hsz ht _ (by simp)]
  have hma : (move_assign_inline C dst other).1
      = ⟨(List.range other.size).map
            (fun m => other.storage.getD ((other.tail + m) % C) none)
          ++ ((destroy_all C dst).storage).drop other.size,
         other.size % C, 0, other.size⟩ := by
    have hma0 : (move_assign_inline C dst other).1
        = ⟨(copyLoop C other.size (destroy_all C dst).storage 0
              other.storage other.tail).1,
           (copyLoop C other.size (destroy_all C dst).storage 0
              other.storage other.tail).2,
           0, other.size⟩ := rfl
    rw [hma0, copyLoop_from_zero hC other hsz ht _ hd]
  refine ⟨?_, rfl, rfl, ?_, rfl, rfl, ?_, rfl, rfl, ?_, rfl, rfl⟩
  · rw [hmc]; exact toList_copy_shape hC other hsz _
  · rw [hma]; exact toList_copy_shape hC other hsz _
  · exact cb_ext rfl rfl rfl rfl
  · exact cb_ext rfl rfl rfl rfl

/-- Witness for C8 at `C = 3`, source `[8, 9]`, destination `[1, 2, 3]`. -/
theorem move_empties_source_preserves_contents_witness :
    toList 3 (move_ctor_inline 3 (pushAll 3 overflow_policy.overwrite [8, 9] (mk0 3)).2).1
      = toList 3 (pushAll 3 overflow_policy.overwrite [8, 9] (mk0 3)).2 ∧
    (move_ctor_inline 3 (pushAll 3 overflow_policy.overwrite [8, 9] (mk0 3)).2).2.size = 0 ∧
    isEmpty (move_ctor_inline 3 (pushAll 3 overflow_policy.overwrite [8, 9] (mk0 3)).2).2
      = true ∧
    toList 3 (move_assign_inline 3 (pushAll 3 overflow_policy.overwrite [1, 2, 3] (mk0 3)).2
        (pushAll 3 overflow_policy.overwrite [8, 9] (mk0 3)).2).1
      = toList 3 (pushAll 3 overflow_policy.overwrite [8, 9] (mk0 3)).2 ∧
    (move_assign_inline 3 (pushAll 3 overflow_policy.overwrite [1, 2, 3] (mk0 3)).2
        (pushAll 3 overflow_policy.overwrite [8, 9] (mk0 3)).2).2.size = 0 ∧
    isEmpty (move_assign_inline 3 (pushAll 3 overflow_policy.overwrite [1, 2, 3] (mk0 3)).2
        (pushAll 3 overflow_policy.overwrite [8, 9] (mk0 3)).2).2 = true ∧
    (move_ctor_heap (pushAll 3 overflow_policy.overwrite [8, 9] (mk0 3)).2).1
      = (pushAll 3 overflow_policy.overwrite [8, 9] (mk0 3)).2 ∧
    (move_ctor_heap (pushAll 3 overflow_policy.overwrite [8, 9] (mk0 3)).2).2.size = 0 ∧
    isEmpty (move_ctor_heap (pushAll 3 overflow_policy.overwrite [8, 9] (mk0 3)).2).2
      = true ∧
    (move_assign_heap (pushAll 3 overflow_policy.overwrite [8, 9] (mk0 3)).2).1
      = (pushAll 3 overflow_policy.overwrite [8, 9] (mk0 3)).2 ∧
    (move_assign_heap (pushAll 3 overflow_policy.overwrite [8, 9] (mk0 3)).2).2.size = 0 ∧
    isEmpty (move_assign_heap (pushAll 3 overflow_policy.overwrite [8, 9] (mk0 3)).2).2
      = true :=
  move_empties_source_preserves_contents 3
    (pushAll 3 overflow_policy.overwrite [8, 9] (mk0 3)).2
    (pushAll 3 overflow_policy.overwrite [1, 2, 3] (mk0 3)).2
    (by decide) (by decide) (by decide) (by decide)

/-! The representation invariant (C1) and its preservation by every
constructor and mutating operation. -/

lemma getD_replicate (n j : ℕ) (d d' : β) :
    (List.replicate n d).getD j d' = if j < n then d else d' := by
  rw [List.getD_eq_getElem?_getD, List.getElem?_replicate]
  split <;> simp

/-- The representation invariant of the container: the storage has
`Capacity` slots, `0 ≤ size ≤ Capacity`, both cursors are in range,
`head = (tail + size) % Capacity`, and the constructed slots are exactly
the wrapped physical range starting at `tail` of length `size`. -/
def Inv (C : ℕ) (s : CB α) : Prop :=
  s.storage.length = C ∧ s.size ≤ C ∧ s.head < C ∧ s.tail < C ∧
  s.head = (s.tail + s.size) % C ∧
  ∀ j, j < C →
    ((s.storage.getD j none).isSome ↔ ∃ k, k < s.size ∧ j = (s.tail + k) % C)

lemma Inv_mk0 {C : ℕ} (hC : 0 < C) : Inv C (mk0 C : CB α) := by
  refine ⟨by simp [mk0], by simp [mk0], by simp [mk0]; omega, by simp [mk0]; omega,
    by simp [mk0], ?_⟩
  intro j hj
  show ((List.replicate C (none : Option α)).getD j none).isSome ↔ ∃ k, k < 0 ∧ _
  rw [getD_replicate]
  simp

lemma emplace_back_eq_push (C : ℕ) (p : overflow_policy) (v : α) (s : CB α) :
    emplace_back_impl C p v s = push_back_impl C p v s := by
  unfold emplace_back_impl push_back_impl
  rw [List.set_set]

lemma emplace_front_eq_push (w C : ℕ) (p : overflow_policy) (v : α) (s : CB α) :
    emplace_front_impl w C p v s = push_front_impl w C p v s := by
  unfold emplace_front_impl push_front_impl
  rw [List.set_set]

lemma Inv_push_back {C : ℕ} (hC : 0 < C) (p : overflow_policy) (v : α) (s : CB α)
    (h : Inv C s) : Inv C (push_back_impl C p v s).2 := by
  obtain ⟨h1, h2, h3, h4, h5, h6⟩ := h
  unfold push_back_impl
  by_cases hguard : p = overflow_policy.discard ∧ full C s
  · rw [if_pos hguard]
    exact ⟨h1, h2, h3, h4, h5, h6⟩
  · rw [if_neg hguard]
    by_cases hfull : s.size = C
    · rw [if_pos (by simp [full, hfull])]
      have htl : s.head = s.tail := by
        rw [h5, hfull, Nat.add_mod_right, Nat.mod_eq_of_lt h4]
      refine ⟨by simp [List.length_set, h1], h2, ?_, ?_, ?_, ?_⟩
      · show next_index C s.head < C
        rw [next_index_eq_mod hC _ h3]; exact Nat.mod_lt _ hC
      · show next_index C s.tail < C
        rw [next_index_eq_mod hC _ h4]; exact Nat.mod_lt _ hC
      · show next_index C s.head = (next_index C s.tail + s.size) % C
        rw [next_index_eq_mod hC _ h3, next_index_eq_mod hC _ h4, htl,
            Nat.mod_add_mod, hfull, Nat.add_mod_right]
      · intro j hj
        show ((s.storage.set s.head (some v)).getD j none).isSome ↔
          ∃ k, k < s.size ∧ j = (next_index C s.tail + k) % C
        constructor
        · intro _
          rw [next_index_eq_mod hC _ h4]
          obtain ⟨k, hk, hjk⟩ := exists_shift hC ((s.tail + 1) % C) j (Nat.mod_lt _ hC) hj
          exact ⟨k, by omega, hjk⟩
        · intro _
          by_cases hjh : j = s.head
          · subst hjh
            rw [getD_set_self' _ _ _ _ (by rw [h1]; exact h3)]
            rfl
          · rw [getD_set_ne' _ _ _ _ _ (fun he => hjh he.symm)]
            rw [h6 j hj]
            obtain ⟨k, hk, hjk⟩ := exists_shift hC s.tail j h4 hj
            exact ⟨k, by omega, hjk⟩
    · rw [if_neg (by simp [full, hfull])]
      have hlt : s.size < C := by omega
      refine ⟨by simp [List.length_set, h1], by show s.size + 1 ≤ C; omega, ?_, h4, ?_, ?_⟩
      · show next_index C s.head < C
        rw [next_index_eq_mod hC _ h3]; exact Nat.mod_lt _ hC
      · show next_index C s.head = (s.tail + (s.size + 1)) % C
        rw [next_index_eq_mod hC _ h3, h5, Nat.mod_add_mod]
        exact rfl
      · intro j hj
        show ((s.storage.set s.head (some v)).getD j none).isSome ↔
          ∃ k, k < s.size + 1 ∧ j = (s.tail + k) % C
        by_cases hjh : j = s.head
        · subst hjh
          rw [getD_set_self' _ _ _ _ (by rw [h1]; exact h3)]
          constructor
          · intro _
            exact ⟨s.size, by omega, h5⟩
          · intro _; rfl
        · rw [getD_set_ne' _ _ _ _ _ (fun he => hjh he.symm), h6 j hj]
          constructor
          · rintro ⟨k, hk, hjk⟩
            exact ⟨k, by omega, hjk⟩
          · rintro ⟨k, hk, hjk⟩
            refine ⟨k, ?_, hjk⟩
            rcases Nat.lt_or_ge k s.size with hlt' | hge
            · exact hlt'
            · exfalso
              have hks : k = s.size := by omega
              rw [hks, ← h5] at hjk
              exact hjh hjk

lemma Inv_push_front {w C : ℕ} (hC : 0 < C) (hw : C < 2 ^ w)
    (p : overflow_policy) (v : α) (s : CB α)
    (h : Inv C s) : Inv C (push_front_impl w C p v s).2 := by
  obtain ⟨h1, h2, h3, h4, h5, h6⟩ := h
  have hpt : prev_index w C s.tail = (s.tail + (C - 1)) % C :=
    prev_index_eq_mod hC hw s.tail h4
  have hptlt : prev_index w C s.tail < C := by rw [hpt]; exact Nat.mod_lt _ hC
  have hph : prev_index w C s.head = (s.head + (C - 1)) % C :=
    prev_index_eq_mod hC hw s.head h3
  have hphlt : prev_index w C s.head < C := by rw [hph]; exact Nat.mod_lt _ hC
  -- shifting the decremented tail by k + 1 lands on the old tail shifted by k
  have hshift : ∀ k : ℕ, (prev_index w C s.tail + (k + 1)) % C = (s.tail + k) % C := by
    intro k
    rw [hpt, Nat.mod_add_mod]
    have h9 : s.tail + (C - 1) + (k + 1) = s.tail + k + C := by omega
    rw [h9, Nat.add_mod_right]
  unfold push_front_impl
  by_cases hguard : p = overflow_policy.discard ∧ full C s
  · rw [if_pos hguard]
    exact ⟨h1, h2, h3, h4, h5, h6⟩
  · rw [if_neg hguard]
    by_cases hfull : s.size = C
    · rw [if_pos (by simp [full, hfull])]
      have htl : s.head = s.tail := by
        rw [h5, hfull, Nat.add_mod_right, Nat.mod_eq_of_lt h4]
      refine ⟨by simp [List.length_set, h1], h2, hphlt, hptlt, ?_, ?_⟩
      · show prev_index w C s.head = (prev_index w C s.tail + s.size) % C
        rw [hph, hpt, htl, Nat.mod_add_mod, hfull, Nat.add_mod_right]
      · intro j hj
        show ((s.storage.set (prev_index w C s.tail) (some v)).getD j none).isSome ↔
          ∃ k, k < s.size ∧ j = (prev_index w C s.tail + k) % C
        constructor
        · intro _
          obtain ⟨k, hk, hjk⟩ := exists_shift hC (prev_index w C s.tail) j hptlt hj
          exact ⟨k, by omega, hjk⟩
        · intro _
          by_cases hjt : j = prev_index w C s.tail
          · subst hjt
            rw [getD_set_self' _ _ _ _ (by rw [h1]; exact hptlt)]
            rfl
          · rw [getD_set_ne' _ _ _ _ _ (fun he => hjt he.symm), h6 j hj]
            obtain ⟨k, hk, hjk⟩ := exists_shift hC s.tail j h4 hj
            exact ⟨k, by omega, hjk⟩
    · rw [if_neg (by simp [full, hfull])]
      refine ⟨by simp [List.length_set, h1], by show s.size + 1 ≤ C; omega, h3, hptlt,
        ?_, ?_⟩
      · show s.head = (prev_index w C s.tail + (s.size + 1)) % C
        rw [hshift s.size, h5]
      · intro j hj
        show ((s.storage.set (prev_index w C s.tail) (some v)).getD j none).isSome ↔
          ∃ k, k < s.size + 1 ∧ j = (prev_index w C s.tail + k) % C
        by_cases hjt : j = prev_index w C s.tail
        · subst hjt
          rw [getD_set_self' _ _ _ _ (by rw [h1]; exact hptlt)]
          constructor
          · intro _
            exact ⟨0, by omega, by rw [Nat.add_zero, Nat.mod_eq_of_lt hptlt]⟩
          · intro _; rfl
        · rw [getD_set_ne' _ _ _ _ _ (fun he => hjt he.symm), h6 j hj]
          constructor
          · rintro ⟨k, hk, hjk⟩
            exact ⟨k + 1, by omega, by rw [hshift k]; exact hjk⟩
          · rintro ⟨k, hk, hjk⟩
            cases k with
            | zero =>
              exfalso
              rw [Nat.add_zero, Nat.mod_eq_of_lt hptlt] at hjk
              exact hjt hjk
            | succ k' =>
              exact ⟨k', by omega, by rw [← hshift k']; exact hjk⟩

lemma Inv_pop_back {w C : ℕ} (hC : 0 < C) (hw : C < 2 ^ w) (s : CB α)
    (hne : s.size ≠ 0) (h : Inv C s) : Inv C (pop_back w C s) := by
  obtain ⟨h1, h2, h3, h4, h5, h6⟩ := h
  have hprev : prev_index w C s.head = (s.tail + (s.size - 1)) % C := by
    rw [prev_index_eq_mod hC hw s.head h3, h5, Nat.mod_add_mod]
    have h9 : s.tail + s.size + (C - 1) = s.tail + (s.size - 1) + C := by omega
    rw [h9, Nat.add_mod_right]
  have hplt : prev_index w C s.head < C := by rw [hprev]; exact Nat.mod_lt _ hC
  refine ⟨by simp [pop_back, List.length_set, h1], by show s.size - 1 ≤ C; omega,
    hplt, h4, hprev, ?_⟩
  intro j hj
  show ((s.storage.set (prev_index w C s.head) none).getD j none).isSome ↔
    ∃ k, k < s.size - 1 ∧ j = (s.tail + k) % C
  by_cases hjp : j = prev_index w C s.head
  · subst hjp
    rw [getD_set_self' _ _ _ _ (by rw [h1]; exact hplt)]
    simp only [Option.isSome_none, Bool.false_eq_true, false_iff]
    rintro ⟨k, hk, hjk⟩
    rw [hprev] at hjk
    have h10 := mod_shift_inj.mp hjk
    rw [Nat.mod_eq_of_lt (by omega : s.size - 1 < C),
        Nat.mod_eq_of_lt (by omega : k < C)] at h10
    omega
  · rw [getD_set_ne' _ _ _ _ _ (fun he => hjp he.symm), h6 j hj]
    constructor
    · rintro ⟨k, hk, hjk⟩
      refine ⟨k, ?_, hjk⟩
      by_cases hk1 : k = s.size - 1
      · exfalso
        apply hjp
        rw [hprev, hjk, hk1]
      · omega
    · rintro ⟨k, hk, hjk⟩
      exact ⟨k, by omega, hjk⟩

lemma Inv_pop_front {C : ℕ} (hC : 0 < C) (s : CB α)
    (hne : s.size ≠ 0) (h : Inv C s) : Inv C (pop_front C s) := by
  obtain ⟨h1, h2, h3, h4, h5, h6⟩ := h
  have hnt : next_index C s.tail = (s.tail + 1) % C := next_index_eq_mod hC _ h4
  have hntlt : next_index C s.tail < C := by rw [hnt]; exact Nat.mod_lt _ hC
  have hshift : ∀ k, (next_index C s.tail + k) % C = (s.tail + (k + 1)) % C := by
    intro k
    have h9 : s.tail + 1 + k = s.tail + (k + 1) := by omega
    rw [hnt, Nat.mod_add_mod, h9]
  refine ⟨by simp [pop_front, List.length_set, h1], by show s.size - 1 ≤ C; omega,
    h3, hntlt, ?_, ?_⟩
  · show s.head = (next_index C s.tail + (s.size - 1)) % C
    have h9 : s.size - 1 + 1 = s.size := by omega
    rw [hshift, h9, h5]
  · intro j hj
    show ((s.storage.set s.tail none).getD j none).isSome ↔
      ∃ k, k < s.size - 1 ∧ j = (next_index C s.tail + k) % C
    by_cases hjt : j = s.tail
    · subst hjt
      rw [getD_set_self' _ _ _ _ (by rw [h1]; exact h4)]
      simp only [Option.isSome_none, Bool.false_eq_true, false_iff]
      rintro ⟨k, hk, hjk⟩
      rw [hshift k] at hjk
      have heq : (s.tail + 0) % C = (s.tail + (k + 1)) % C := by
        rw [Nat.add_zero, Nat.mod_eq_of_lt h4]
        exact hjk
      have h10 := mod_shift_inj.mp heq
      rw [Nat.zero_mod, Nat.mod_eq_of_lt (by omega : k + 1 < C)] at h10
      omega
    · rw [getD_set_ne' _ _ _ _ _ (fun he => hjt he.symm), h6 j hj]
      constructor
      · rintro ⟨k, hk, hjk⟩
        cases k with
        | zero =>
          exfalso
          rw [Nat.add_zero, Nat.mod_eq_of_lt h4] at hjk
          exact hjt hjk
        | succ k' =>
          exact ⟨k', by omega, by rw [hshift k']; exact hjk⟩
      · rintro ⟨k, hk, hjk⟩
        rw [hshift k] at hjk
        exact ⟨k + 1, by omega, hjk⟩

lemma destroyLoop_getD {C : ℕ} (hC : 0 < C) :
    ∀ (n : ℕ) (st : List (Option α)) (cur j : ℕ), cur < C → C ≤ st.length →
      (destroyLoop C n st cur).getD j none
        = if ∃ i, i < n ∧ j = (cur + i) % C then none else st.getD j none := by
  intro n
  induction n with
  | zero =>
    intro st cur j hcur hlen
    rw [if_neg (by rintro ⟨i, hi, _⟩; omega)]
    rfl
  | succ n ih =>
    intro st cur j hcur hlen
    show (destroyLoop C n (st.set cur none) (next_index C cur)).getD j none = _
    rw [ih (st.set cur none) (next_index C cur) j
        (by rw [next_index_eq_mod hC _ hcur]; exact Nat.mod_lt _ hC)
        (by rw [List.length_set]; exact hlen)]
    have hsh : ∀ i, (next_index C cur + i) % C = (cur + (i + 1)) % C := by
      intro i
      have h9 : cur + 1 + i = cur + (i + 1) := by omega
      rw [next_index_eq_mod hC _ hcur, Nat.mod_add_mod, h9]
    by_cases hin : ∃ i, i < n ∧ j = (next_index C cur + i) % C
    · rw [if_pos hin]
      obtain ⟨i, hi, hj⟩ := hin
      rw [hsh i] at hj
      rw [if_pos ⟨i + 1, by omega, hj⟩]
    · by_cases hj : j = cur
      · subst hj
        rw [if_neg hin, getD_set_self' _ _ _ _ (by omega),
          if_pos ⟨0, by omega, by rw [Nat.add_zero, Nat.mod_eq_of_lt hcur]⟩]
      · have hnotin : ¬ ∃ i, i < n + 1 ∧ j = (cur + i) % C := by
          rintro ⟨i, hi, hji⟩
          cases i with
          | zero =>
            rw [Nat.add_zero, Nat.mod_eq_of_lt hcur] at hji
            exact hj hji
          | succ i' =>
            exact hin ⟨i', by omega, by rw [hsh i']; exact hji⟩
        rw [if_neg hin, getD_set_ne' _ _ _ _ _ (fun he => hj he.symm), if_neg hnotin]

lemma Inv_destroy_all {C : ℕ} (hC : 0 < C) (s : CB α) (h : Inv C s) :
    Inv C (destroy_all C s) := by
  obtain ⟨h1, h2, h3, h4, h5, h6⟩ := h
  refine ⟨?_, by show (0 : ℕ) ≤ C; omega, hC, hC,
    by show (0 : ℕ) = (0 + 0) % C; simp, ?_⟩
  · show (destroyLoop C s.size s.storage s.tail).length = C
    rw [destroyLoop_length, h1]
  · intro j hj
    show ((destroyLoop C s.size s.storage s.tail).getD j none).isSome ↔
      ∃ k, k < 0 ∧ j = (0 + k) % C
    rw [destroyLoop_getD hC s.size s.storage s.tail j h4 (by omega)]
    constructor
    · intro hsome
      exfalso
      by_cases hin : ∃ i, i < s.size ∧ j = (s.tail + i) % C
      · rw [if_pos hin] at hsome
        simp at hsome
      · rw [if_neg hin] at hsome
        rw [h6 j hj] at hsome
        exact hin hsome
    · rintro ⟨k, hk, _⟩
      omega

lemma Inv_copy_shape {C : ℕ} (hC : 0 < C) (other : CB α) (h : Inv C other)
    (junk : List (Option α)) (hjl : junk.length = C - other.size)
    (hjn : ∀ m, m < junk.length → junk.getD m none = none) :
    Inv C (⟨(List.range other.size).map
        (fun m => other.storage.getD ((other.tail + m) % C) none) ++ junk,
      other.size % C, 0, other.size⟩ : CB α) := by
  obtain ⟨h1, h2, h3, h4, h5, h6⟩ := h
  refine ⟨?_, h2, ?_, hC, ?_, ?_⟩
  · show ((List.range other.size).map _ ++ junk).length = C
    rw [List.length_append, List.length_map, List.length_range, hjl]
    omega
  · show other.size % C < C
    exact Nat.mod_lt _ hC
  · show other.size % C = (0 + other.size) % C
    rw [Nat.zero_add]
  · intro j hj
    show ((((List.range other.size).map
        (fun m => other.storage.getD ((other.tail + m) % C) none)) ++ junk).getD
          j none).isSome ↔
      ∃ k, k < other.size ∧ j = (0 + k) % C
    have hrhs : (∃ k, k < other.size ∧ j = (0 + k) % C) ↔ j < other.size := by
      constructor
      · rintro ⟨k, hk, hjk⟩
        rw [Nat.zero_add, Nat.mod_eq_of_lt (by omega)] at hjk
        omega
      · intro hlt
        exact ⟨j, hlt, by rw [Nat.zero_add, Nat.mod_eq_of_lt (by omega)]⟩
    rw [hrhs]
    by_cases hjs : j < other.size
    · rw [getD_append_left' _ _ _ _ (by simpa using hjs),
          getD_map_range _ _ _ _ hjs,
          h6 ((other.tail + j) % C) (Nat.mod_lt _ hC)]
      exact iff_of_true ⟨j, hjs, rfl⟩ hjs
    · rw [getD_append_right' _ _ _ _ (by simp; omega)]
      have hb : j - ((List.range other.size).map
          (fun m => other.storage.getD ((other.tail + m) % C) none)).length
            < junk.length := by
        rw [List.length_map, List.length_range, hjl]
        omega
      rw [hjn _ hb]
      simp [hjs]

lemma Inv_canonical {C : ℕ} (hC : 0 < C) (vs : List α) (hlen : vs.length ≤ C) :
    Inv C (canonical C vs) := by
  refine ⟨?_, hlen, ?_, hC, ?_, ?_⟩
  · show (vs.map some ++ List.replicate (C - vs.length) none).length = C
    simp
    omega
  · show vs.length % C < C
    exact Nat.mod_lt _ hC
  · show vs.length % C = (0 + vs.length) % C
    rw [Nat.zero_add]
  · intro j hj
    show ((vs.map some ++ List.replicate (C - vs.length) none).getD j none).isSome ↔
      ∃ k, k < vs.length ∧ j = (0 + k) % C
    have hrhs : (∃ k, k < vs.length ∧ j = (0 + k) % C) ↔ j < vs.length := by
      constructor
      · rintro ⟨k, hk, hjk⟩
        rw [Nat.zero_add, Nat.mod_eq_of_lt (by omega)] at hjk
        omega
      · intro hlt
        exact ⟨j, hlt, by rw [Nat.zero_add, Nat.mod_eq_of_lt (by omega)]⟩
    rw [hrhs]
    by_cases hjs : j < vs.length
    · rw [getD_append_left' _ _ _ _ (by simpa using hjs),
          List.getD_eq_getElem?_getD, List.getElem?_map,
          List.getElem?_eq_getElem hjs]
      simp [hjs]
    · rw [getD_append_right' _ _ _ _ (by simp; omega), getD_replicate]
      simp [hjs]

lemma fill_ctor_eq_canonical {C : ℕ} (hC : 0 < C) (p : overflow_policy) (v : α) :
    fill_ctor C p v = canonical C (List.replicate C v) := by
  unfold fill_ctor
  rw [fillLoop_eq_pushAll]
  have hcanon := pushAll_canonical C p hC (List.replicate C v) [] (by simp)
  rw [canonical_nil] at hcanon
  rw [hcanon]
  simp

lemma Inv_copy_ctor {C : ℕ} (hC : 0 < C) (other : CB α) (h : Inv C other) :
    Inv C (copy_ctor C other) := by
  have hshape : copy_ctor C other
      = ⟨(List.range other.size).map
            (fun m => other.storage.getD ((other.tail + m) % C) none)
          ++ (List.replicate C (none : Option α)).drop other.size,
         other.size % C, 0, other.size⟩ := by
    unfold copy_ctor
    rw [copyLoop_from_zero hC other h.2.1 h.2.2.2.1 _ (by simp)]
  rw [hshape, List.drop_replicate]
  refine Inv_copy_shape hC other h _ (by simp) ?_
  intro m hm
  rw [getD_replicate]
  split <;> rfl

/-- States reachable from the container's constructors by any sequence of
`push_back` / `push_front` / `emplace_back` / `emplace_front` / `pop_back`
/ `pop_front` / `pop_back_safe` / `pop_front_safe` / `clear`.  The range
and initializer-list constructors are a default construction followed by
`push_back` calls and are covered by those two rules; the unchecked pops
carry their asserted precondition `!empty()`. -/
inductive Reachable (w C : ℕ) : CB α → Prop where
  | default_ctor : Reachable w C (mk0 C)
  | fill_ctor_step (p : overflow_policy) (v : α) : Reachable w C (fill_ctor C p v)
  | copy_ctor_step (other : CB α) : Reachable w C other →
      Reachable w C (copy_ctor C other)
  | move_inline_dst (other : CB α) : Reachable w C other →
      Reachable w C (move_ctor_inline C other).1
  | move_inline_src (other : CB α) : Reachable w C other →
      Reachable w C (move_ctor_inline C other).2
  | move_heap_dst (other : CB α) : Reachable w C other →
      Reachable w C (move_ctor_heap other).1
  | push_back_step (p : overflow_policy) (v : α) (s : CB α) : Reachable w C s →
      Reachable w C (push_back_impl C p v s).2
  | push_front_step (p : overflow_policy) (v : α) (s : CB α) : Reachable w C s →
      Reachable w C (push_front_impl w C p v s).2
  | emplace_back_step (p : overflow_policy) (v : α) (s : CB α) : Reachable w C s →
      Reachable w C (emplace_back_impl C p v s).2
  | emplace_front_step (p : overflow_policy) (v : α) (s : CB α) : Reachable w C s →
      Reachable w C (emplace_front_impl w C p v s).2
  | pop_back_step (s : CB α) : Reachable w C s → s.size ≠ 0 →
      Reachable w C (pop_back w C s)
  | pop_front_step (s : CB α) : Reachable w C s → s.size ≠ 0 →
      Reachable w C (pop_front C s)
  | pop_back_safe_step (s : CB α) : Reachable w C s →
      Reachable w C (pop_back_safe w C s).2
  | pop_front_safe_step (s : CB α) : Reachable w C s →
      Reachable w C (pop_front_safe C s).2
  | clear_step (s : CB α) : Reachable w C s → Reachable w C (destroy_all C s)

/-- C1: every reachable state satisfies the invariant: the storage has
capacity slots, `0 ≤ size ≤ capacity`, `head = (tail + size) % capacity`,
the live (constructed) slots are exactly the wrapped physical range
starting at `tail` of length `size`, and consequently `head = tail`
exactly when the buffer is empty or full. -/
theorem reachable_state_invariant (w C : ℕ) {α : Type} (s : CB α)
    (hC : 0 < C) (hw : C < 2 ^ w) (hr : Reachable w C s) :
    Inv C s ∧ (s.head = s.tail ↔ s.size = 0 ∨ s.size = C) := by
  have hinv : Inv C s := by
    induction hr with
    | default_ctor => exact Inv_mk0 hC
    | fill_ctor_step p v =>
      rw [fill_ctor_eq_canonical hC p v]
      exact Inv_canonical hC _ (by simp)
    | copy_ctor_step other _ ih => exact Inv_copy_ctor hC other ih
    | move_inline_dst other _ ih =>
      have he : (move_ctor_inline C other).1 = copy_ctor C other := rfl
      rw [he]
      exact Inv_copy_ctor hC other ih
    | move_inline_src other _ ih =>
      have he : (move_ctor_inline C other).2 = destroy_all C other := rfl
      rw [he]
      exact Inv_destroy_all hC other ih
    | move_heap_dst other _ ih =>
      have he : (move_ctor_heap other).1 = other := cb_ext rfl rfl rfl rfl
      rw [he]
      exact ih
    | push_back_step p v s _ ih => exact Inv_push_back hC p v s ih
    | push_front_step p v s _ ih => exact Inv_push_front hC hw p v s ih
    | emplace_back_step p v s _ ih =>
      rw [emplace_back_eq_push]
      exact Inv_push_back hC p v s ih
    | emplace_front_step p v s _ ih =>
      rw [emplace_front_eq_push]
      exact Inv_push_front hC hw p v s ih
    | pop_back_step s _ hne ih => exact Inv_pop_back hC hw s hne ih
    | pop_front_step s _ hne ih => exact Inv_pop_front hC s hne ih
    | pop_back_safe_step s _ ih =>
      by_cases h0 : s.size = 0
      · have he : (pop_back_safe w C s).2 = s := by
          unfold pop_back_safe
          rw [if_pos h0]
        rw [he]
        exact ih
      · have he : (pop_back_safe w C s).2 = pop_back w C s := by
          unfold pop_back_safe
          rw [if_neg h0]
        rw [he]
        exact Inv_pop_back hC hw s h0 ih
    | pop_front_safe_step s _ ih =>
      by_cases h0 : s.size = 0
      · have he : (pop_front_safe C s).2 = s := by
          unfold pop_front_safe
          rw [if_pos h0]
        rw [he]
        exact ih
      · have he : (pop_front_safe C s).2 = pop_front C s := by
          unfold pop_front_safe
          rw [if_neg h0]
        rw [he]
        exact Inv_pop_front hC s h0 ih
    | clear_step s _ ih => exact Inv_destroy_all hC s ih
  refine ⟨hinv, ?_⟩
  obtain ⟨h1, h2, h3, h4, h5, h6⟩ := hinv
  constructor
  · intro he
    have heq : (s.tail + s.size) % C = (s.tail + 0) % C := by
      rw [Nat.add_zero, Nat.mod_eq_of_lt h4, ← h5, he]
    have h7 := mod_shift_inj.mp heq
    rw [Nat.zero_mod] at h7
    by_cases hsz : s.size = C
    · right
      exact hsz
    · left
      rw [Nat.mod_eq_of_lt (by omega)] at h7
      exact h7
  · intro h
    rcases h with h0 | hc
    · rw [h5, h0, Nat.add_zero, Nat.mod_eq_of_lt h4]
    · rw [h5, hc, Nat.add_mod_right, Nat.mod_eq_of_lt h4]

/-- Witness for C1 at `w = 32`, `C = 3`, on the state reached by a fill
construction, a push, and a safe pop. -/
theorem reachable_state_invariant_witness :
    Inv 3 (pop_back_safe 32 3 (push_back_impl 3 overflow_policy.overwrite 5
        (fill_ctor 3 overflow_policy.overwrite (2 : ℕ))).2).2 ∧
    ((pop_back_safe 32 3 (push_back_impl 3 overflow_policy.overwrite 5
        (fill_ctor 3 overflow_policy.overwrite (2 : ℕ))).2).2.head
      = (pop_back_safe 32 3 (push_back_impl 3 overflow_policy.overwrite 5
        (fill_ctor 3 overflow_policy.overwrite (2 : ℕ))).2).2.tail ↔
     (pop_back_safe 32 3 (push_back_impl 3 overflow_policy.overwrite 5
        (fill_ctor 3 overflow_policy.overwrite (2 : ℕ))).2).2.size = 0 ∨
     (pop_back_safe 32 3 (push_back_impl 3 overflow_policy.overwrite 5
        (fill_ctor 3 overflow_policy.overwrite (2 : ℕ))).2).2.size = 3) :=
  reachable_state_invariant 32 3 _ (by decide) (by decide)
    (Reachable.pop_back_safe_step _
      (Reachable.push_back_step overflow_policy.overwrite 5 _
        (Reachable.fill_ctor_step overflow_policy.overwrite 2)))

end CircBuf
